import Mathlib

/-!
Verification development for the decklist-to-image-download pipeline in
src/decklists.py.  Strings are modelled as List Char (ASCII inputs); the
Python regular expressions used by the source are embedded as executable
scanning functions with exactly the source regexes backtracking behaviour
on this character model.
-/

namespace Decklists

/-! Character classes, mirroring the ASCII behaviour of the Python regex
classes used by the source: \d, [A-Za-z0-9], [a-z] with IGNORECASE, \w, \s. -/

def isDigitC (c : Char) : Bool := decide (48 ≤ c.toNat ∧ c.toNat ≤ 57)

def isUpperC (c : Char) : Bool := decide (65 ≤ c.toNat ∧ c.toNat ≤ 90)

def isLowerC (c : Char) : Bool := decide (97 ≤ c.toNat ∧ c.toNat ≤ 122)

def isLetterC (c : Char) : Bool := isUpperC c || isLowerC c

def isAlnumC (c : Char) : Bool := isDigitC c || isLetterC c

def isWordC (c : Char) : Bool := isAlnumC c || c == '_'

def isSpaceC (c : Char) : Bool :=
  c == ' ' || c == '\t' || c == '\n' || c == '\r' || c == '\x0b' || c == '\x0c'

/-- Python str.lower for one ASCII character. -/
def toLowerC (c : Char) : Char :=
  if isUpperC c then Char.ofNat (c.toNat + 32) else c

/-! Python str.strip on both ends. -/

def trimLeft (s : List Char) : List Char := s.dropWhile isSpaceC

def trimRight (s : List Char) : List Char := (s.reverse.dropWhile isSpaceC).reverse

def trim (s : List Char) : List Char := trimLeft (trimRight s)

/-! Foil-marker stripping: re.sub of the pattern for a star-F-star marker or
a parenthesised Foil word, case-insensitive, scanning left to right and
replacing every non-overlapping occurrence by the empty string
(decklists.py line 49). -/

/-- Case-insensitive test that four characters spell the word foil. -/
def isFoilChars (a b c d : Char) : Bool :=
  (a == 'f' || a == 'F') && (b == 'o' || b == 'O') &&
  (c == 'i' || c == 'I') && (d == 'l' || d == 'L')

/-- Whether a 2-5 character set token is the word foil in some casing. -/
def isFoilWordB : List Char → Bool
  | [a, b, c, d] => isFoilChars a b c d
  | _ => false

/-- Match of the star-F-star foil marker at the head of the string. -/
def foilStarAt : List Char → Option (List Char)
  | a :: b :: c :: rest =>
    if a == '*' && (b == 'f' || b == 'F') && c == '*' then some rest else none
  | _ => none

/-- Match of the parenthesised Foil marker at the head of the string. -/
def foilParenAt : List Char → Option (List Char)
  | a :: b :: c :: d :: e :: f :: rest =>
    if a == '(' && isFoilChars b c d e && f == ')' then some rest else none
  | _ => none

/-- Fuelled left-to-right scan removing each foil-marker occurrence. -/
def foilSubF : Nat → List Char → List Char
  | 0, s => s
  | _ + 1, [] => []
  | fuel + 1, c :: cs =>
    match foilStarAt (c :: cs) with
    | some rest => foilSubF fuel rest
    | none =>
      match foilParenAt (c :: cs) with
      | some rest => foilSubF fuel rest
      | none => c :: foilSubF fuel cs

def foilSub (s : List Char) : List Char := foilSubF s.length s

/-! Quantity prefix: the anchored regex of decklists.py line 51, an initial
digit run, optional whitespace, an optional x or X, mandatory whitespace,
then the remainder; the caller strips the remainder.  The scan below is the
backtracking-faithful closed form of that regex. -/

/-- Numeric value of a decimal digit run, as Python int of the run. -/
def digitsVal (d : List Char) : Nat := d.foldl (fun a c => a * 10 + (c.toNat - 48)) 0

def qtySplit (s : List Char) : Option (Nat × List Char) :=
  if (s.takeWhile isDigitC).isEmpty then none
  else
    match (s.dropWhile isDigitC).dropWhile isSpaceC with
    | c :: v =>
      if (c == 'x' || c == 'X') &&
          (match v with | v0 :: _ => isSpaceC v0 | [] => false) then
        some (digitsVal (s.takeWhile isDigitC), trim v)
      else if ((s.dropWhile isDigitC).takeWhile isSpaceC).isEmpty then none
      else some (digitsVal (s.takeWhile isDigitC), trim (c :: v))
    | [] =>
      if ((s.dropWhile isDigitC).takeWhile isSpaceC).isEmpty then none
      else some (digitsVal (s.takeWhile isDigitC), [])

/-! Set-code search: leftmost occurrence of a parenthesised 2-5 character
alphanumeric token (decklists.py line 59).  Returns the text before the
match, the token, and the text after the closing parenthesis. -/

/-- Match of the parenthesised set token at the head of the string. -/
def setMatchAt (s : List Char) : Option (List Char × List Char) :=
  match s with
  | c :: t =>
    if c == '(' then
      let r := t.takeWhile isAlnumC
      let rest := t.dropWhile isAlnumC
      if 2 ≤ r.length ∧ r.length ≤ 5 then
        match rest with
        | c2 :: after => if c2 == ')' then some (r, after) else none
        | [] => none
      else none
    else none
  | [] => none

def setSearch : List Char → Option (List Char × List Char × List Char)
  | [] => none
  | c :: cs =>
    match setMatchAt (c :: cs) with
    | some (code, after) => some ([], code, after)
    | none => (setSearch cs).map (fun x => (c :: x.1, x.2.1, x.2.2))

/-! Collector-number search: leftmost match of a word-bounded digit run with
an optional trailing letter, followed only by whitespace up to the end of
the string (decklists.py line 66, IGNORECASE). -/

/-- Match of the collector-number regex starting at the current position,
given whether the previous character was a non-word character (the word
boundary required before the digit run). -/
def numMatchAt (prevNonWord : Bool) (s : List Char) : Option (List Char) :=
  if !prevNonWord then none
  else
    let d := s.takeWhile isDigitC
    let t := s.dropWhile isDigitC
    if d.isEmpty then none
    else
      match t with
      | [] => some d
      | c :: rest =>
        if isLetterC c then
          if rest.all isSpaceC then some (d ++ [c]) else none
        else if isWordC c then none
        else if (c :: rest).all isSpaceC then some d else none

def numSearchGo (prevWord : Bool) : List Char → Option (List Char × List Char)
  | [] => none
  | c :: cs =>
    match numMatchAt (!prevWord) (c :: cs) with
    | some g => some ([], g)
    | none => (numSearchGo (isWordC c) cs).map (fun x => (c :: x.1, x.2))

def numSearch (s : List Char) : Option (List Char × List Char) := numSearchGo false s

/-! Face-separator normalisation: re.sub replacing each whitespace-framed
double slash by a single canonical spaced double slash
(decklists.py line 74). -/

/-- Match of the spaced double-slash pattern at the head of the string;
returns the remainder after the match (trailing whitespace consumed). -/
def slashMatchAt (s : List Char) : Option (List Char) :=
  match s.dropWhile isSpaceC with
  | c1 :: c2 :: rest =>
    if c1 == '/' && c2 == '/' then some (rest.dropWhile isSpaceC) else none
  | _ => none

def slashNormF : Nat → List Char → List Char
  | 0, s => s
  | _ + 1, [] => []
  | fuel + 1, c :: cs =>
    match slashMatchAt (c :: cs) with
    | some rest => ' ' :: '/' :: '/' :: ' ' :: slashNormF fuel rest
    | none => c :: slashNormF fuel cs

def slashNorm (s : List Char) : List Char := slashNormF s.length s

/-! The line parser (decklists.py lines 43-78). -/

structure CardEntry where
  qty : Nat
  name : List Char
  set : Option (List Char)
  collector_number : Option (List Char)
deriving DecidableEq, Repr

/-- The comment and section-header test of decklists.py line 47. -/
def startsWithAny (s : List Char) : Bool :=
  List.isPrefixOf ['#'] s || List.isPrefixOf ['/', '/'] s ||
  List.isPrefixOf ("Sideboard".toList) s || List.isPrefixOf ("Commander".toList) s ||
  List.isPrefixOf ("Companion".toList) s || List.isPrefixOf ("Maybeboard".toList) s

/-- Final stage of the parser: face-separator normalisation and the empty
name guard (decklists.py lines 74-78). -/
def mkEntry (qty : Nat) (setc cn : Option (List Char)) (n0 : List Char) :
    Option CardEntry :=
  if (slashNorm n0).isEmpty then none else some ⟨qty, slashNorm n0, setc, cn⟩

/-- Collector-number stage of the parser (decklists.py lines 66-72). -/
def parseNum (qty : Nat) (setc : Option (List Char)) (rws : List Char) :
    Option CardEntry :=
  match numSearch rws with
  | some (before, g) => mkEntry qty setc (some g) (trim before)
  | none => mkEntry qty setc none (trim rws)

/-- Set-code stage of the parser (decklists.py lines 59-64). -/
def parseRest (qty : Nat) (rest : List Char) : Option CardEntry :=
  match setSearch rest with
  | some (b, code, a) => parseNum qty (some (code.map toLowerC)) (trim (b ++ a))
  | none => parseNum qty none rest

/-- Quantity stage of the parser (decklists.py lines 51-57). -/
def parseAfterFoil (s : List Char) : Option CardEntry :=
  match qtySplit s with
  | some (q, rest) => parseRest q rest
  | none => parseRest 1 s

def parse_deck_line (line : List Char) : Option CardEntry :=
  if (trim line).isEmpty then none
  else if startsWithAny (trim line) then none
  else parseAfterFoil (trim (foilSub (trim line)))

/-! Decimal rendering of a natural number, as the Python format of an int. -/

def digitChar : Nat → Char
  | 0 => '0' | 1 => '1' | 2 => '2' | 3 => '3' | 4 => '4'
  | 5 => '5' | 6 => '6' | 7 => '7' | 8 => '8' | _ => '9'

def natDigitsF : Nat → Nat → List Char
  | 0, _ => []
  | fuel + 1, n => if n < 10 then [digitChar n] else natDigitsF fuel (n / 10) ++ [digitChar (n % 10)]

def natDigits (n : Nat) : List Char := natDigitsF (n + 1) n

/-- Modelled from the spec: the canonical qty name (set) num serialisation of
a CardEntry (section 8 of the spec; the source itself has no serialiser),
omitting the set and collector-number parts when absent. -/
def serializeEntry (e : CardEntry) : List Char :=
  natDigits e.qty ++ ' ' :: e.name ++
  (match e.set with
   | some s => ' ' :: '(' :: s ++ [')']
   | none => []) ++
  (match e.collector_number with
   | some n => ' ' :: n
   | none => [])

/-! Filename sanitisation (decklists.py lines 36-40): strip, delete every
character outside the whitelist, collapse whitespace runs to one space. -/

def keepChar (c : Char) : Bool :=
  isWordC c || isSpaceC c ||
  c == '-' || c == '(' || c == ')' || c == '[' || c == ']' ||
  c == '.' || c == '&' || c == ',' || c == Char.ofNat 39 || c == '!' || c == '+'

def collapseWsF : Nat → List Char → List Char
  | 0, s => s
  | _ + 1, [] => []
  | fuel + 1, c :: cs =>
    if isSpaceC c then ' ' :: collapseWsF fuel (cs.dropWhile isSpaceC)
    else c :: collapseWsF fuel cs

def collapseWs (s : List Char) : List Char := collapseWsF s.length s

def sanitize_filename (name : List Char) : List Char :=
  collapseWs ((trim name).filter keepChar)

/-! The card object returned by the lookup API, restricted to the fields the
source consumes; image-URI dictionaries are modelled as association lists. -/

structure Face where
  name : Option (List Char)
  image_uris : Option (List (List Char × List Char))
deriving DecidableEq, Repr

structure Card where
  name : Option (List Char)
  set : Option (List Char)
  collector_number : Option (List Char)
  image_uris : Option (List (List Char × List Char))
  card_faces : Option (List Face)
deriving DecidableEq, Repr

/-- Dictionary lookup on the association-list model. -/
def lookupSize (assoc : List (List Char × List Char)) (size : List Char) :
    Option (List Char) :=
  match assoc with
  | [] => none
  | (k, v) :: rest => if k == size then some v else lookupSize rest size

/-- Python truthiness of an optional string. -/
def truthy : Option (List Char) → Bool
  | none => false
  | some s => !s.isEmpty

/-- Python truthiness of an optional list. -/
def truthyL {α : Type} : Option (List α) → Bool
  | none => false
  | some l => !l.isEmpty

/-- Filename construction (decklists.py lines 156-164). -/
def make_filename (card : Card) (qty : Nat) (face_suffix : List Char) : List Char :=
  let set_code := (card.set.getD []).map toLowerC
  let cn := card.collector_number.getD []
  let name := sanitize_filename (card.name.getD ("Unknown".toList))
  let qtyPart := if qty > 1 then natDigits qty ++ ['x', ' '] else []
  let setPart := if set_code.isEmpty then [] else ' ' :: '(' :: set_code ++ [')']
  let numPart := if cn.isEmpty then [] else ' ' :: cn
  qtyPart ++ name ++ face_suffix ++ setPart ++ numPart

/-- The part of a filename after the optional quantity marker. -/
def filenameBody (card : Card) (face_suffix : List Char) : List Char :=
  let set_code := (card.set.getD []).map toLowerC
  let cn := card.collector_number.getD []
  let name := sanitize_filename (card.name.getD ("Unknown".toList))
  let setPart := if set_code.isEmpty then [] else ' ' :: '(' :: set_code ++ [')']
  let numPart := if cn.isEmpty then [] else ' ' :: cn
  name ++ face_suffix ++ setPart ++ numPart

/-! Identifier construction (decklists.py lines 102-111). -/

structure Identifier where
  name : Option (List Char)
  set : Option (List Char)
  collector_number : Option (List Char)
deriving DecidableEq, Repr

def build_identifiers (entries : List CardEntry) : List Identifier :=
  entries.map (fun e =>
    if truthy e.set && truthy e.collector_number then
      { name := none, set := e.set, collector_number := e.collector_number }
    else if truthy e.set then
      { name := some e.name, set := e.set, collector_number := none }
    else
      { name := some e.name, set := none, collector_number := none })

/-! Grouping by identity key (decklists.py lines 174-185): the key strings
and the insertion-ordered dictionary of groups. -/

def keyOf (e : CardEntry) : List Char :=
  if truthy e.set && truthy e.collector_number then
    "set:".toList ++ e.set.getD [] ++ "#cn:".toList ++ e.collector_number.getD []
  else if truthy e.set then
    "name:".toList ++ e.name.map toLowerC ++ "#set:".toList ++ e.set.getD []
  else
    "name:".toList ++ e.name.map toLowerC

/-- Insertion-ordered dictionary setdefault-then-append. -/
def upsert (groups : List (List Char × List CardEntry)) (k : List Char)
    (e : CardEntry) : List (List Char × List CardEntry) :=
  match groups with
  | [] => [(k, [e])]
  | (k2, es) :: rest =>
    if k2 == k then (k2, es ++ [e]) :: rest else (k2, es) :: upsert rest k e

def group_by_identifier (entries : List CardEntry) :
    List (List Char × List CardEntry) :=
  entries.foldl (fun gs e => upsert gs (keyOf e) e) []

/-- Aggregation from main (decklists.py lines 228-234): one exemplar entry
per group with the summed, or unit, quantity. -/
def aggregate (uniqueMode : Bool) (parsed : List CardEntry) : List CardEntry :=
  (group_by_identifier parsed).map (fun g =>
    match g.2 with
    | [] => { qty := 0, name := [], set := none, collector_number := none }
    | e :: es =>
      { e with qty := if uniqueMode then 1 else ((e :: es).map (fun i => i.qty)).sum })

/-! Image selection (decklists.py lines 119-136). -/

def noSizeMsg (size : List Char) (card : Card) : List Char :=
  "No ".toList ++ size ++ " image for ".toList ++ card.name.getD ("None".toList)

def faceMsg (size : List Char) (idx : Nat) (card : Card) : List Char :=
  "No ".toList ++ size ++ " image for face ".toList ++ natDigits (idx + 1) ++
  " of ".toList ++ card.name.getD ("None".toList)

def noUrisMsg (card : Card) : List Char :=
  "No image_uris found for ".toList ++ card.name.getD ("None".toList)

def facesGo (size : List Char) (card : Card) (idx : Nat) :
    List Face → Except (List Char) (List (List Char × List Char))
  | [] => .ok []
  | f :: fs =>
    match f.image_uris with
    | none => .error (faceMsg size idx card)
    | some fiu =>
      match lookupSize fiu size with
      | none => .error (faceMsg size idx card)
      | some url =>
        let fname := f.name.getD ("face".toList ++ natDigits (idx + 1))
        match facesGo size card (idx + 1) fs with
        | .error m => .error m
        | .ok rest => .ok ((url, '-' :: sanitize_filename fname) :: rest)

def pick_image_uris (card : Card) (size : List Char) :
    Except (List Char) (List (List Char × List Char)) :=
  match card.image_uris with
  | some (kv :: iu) =>
    match lookupSize (kv :: iu) size with
    | none => .error (noSizeMsg size card)
    | some url => .ok [(url, [])]
  | _ =>
    match card.card_faces with
    | some (f :: fs) => facesGo size card 0 (f :: fs)
    | _ => .error (noUrisMsg card)

/-! Extension inference (decklists.py lines 167-171): leftmost occurrence of
a dot followed by png, jpg or jpeg in any casing, terminated by a question
mark or the end of the url. -/

def toUpperC (c : Char) : Char := if isLowerC c then Char.ofNat (c.toNat - 32) else c

/-- Case-insensitive literal prefix match returning the remainder. -/
def tryLitI : List Char → List Char → Option (List Char)
  | [], s => some s
  | _ :: _, [] => none
  | l :: ls, c :: cs => if c == l || c == toUpperC l then tryLitI ls cs else none

def extTerm : List Char → Bool
  | [] => true
  | c :: _ => c == '?'

def extTryJpeg (rest : List Char) : Option (List Char) :=
  match tryLitI ("jpeg".toList) rest with
  | some r => if extTerm r then some ("jpeg".toList) else none
  | none => none

def extTryJpg (rest : List Char) : Option (List Char) :=
  match tryLitI ("jpg".toList) rest with
  | some r => if extTerm r then some ("jpg".toList) else extTryJpeg rest
  | none => extTryJpeg rest

def extMatchAt : List Char → Option (List Char)
  | '.' :: rest =>
    match tryLitI ("png".toList) rest with
    | some r => if extTerm r then some ("png".toList) else extTryJpg rest
    | none => extTryJpg rest
  | _ => none

def extSearch : List Char → Option (List Char)
  | [] => none
  | c :: cs =>
    match extMatchAt (c :: cs) with
    | some ext => some ext
    | none => extSearch cs

def infer_extension_from_url (url : List Char) : List Char :=
  match extSearch url with
  | some ext => '.' :: ext
  | none => ".img".toList

/-! Batch resolution (decklists.py lines 245-259).  The lookup API is
modelled as a deterministic oracle from identifiers to optional card
objects; per the API contract, each response carries the resolved cards in
identifier order and the unresolved identifiers in not_found. -/

def BATCH_SIZE : Nat := 75

def resolveGo (oracle : Identifier → Option Card) :
    Nat → List Identifier → List CardEntry → List (Card × Nat) × List Identifier
  | 0, _, _ => ([], [])
  | _ + 1, [], _ => ([], [])
  | fuel + 1, i :: is, entries =>
    let batch := (i :: is).take BATCH_SIZE
    let returned := batch.filterMap oracle
    let notFound := batch.filter (fun j => (oracle j).isNone)
    let resolved := List.zipWith (fun c (e : CardEntry) => (c, e.qty))
      returned (entries.take BATCH_SIZE)
    let next := resolveGo oracle fuel ((i :: is).drop BATCH_SIZE) (entries.drop BATCH_SIZE)
    (resolved ++ next.1, notFound ++ next.2)

def resolve_batches (oracle : Identifier → Option Card) (aggregated : List CardEntry) :
    List (Card × Nat) × List Identifier :=
  let identifiers := build_identifiers aggregated
  resolveGo oracle identifiers.length identifiers aggregated

/-! Download orchestration (decklists.py lines 261-278).  The file download
collaborator is an oracle from url and destination path to a possible
failure; the loop catches a failure of one card, records the card name with
the message, and moves on. -/

def downloadPairs (download : List Char → List Char → Except (List Char) Unit)
    (outDir : List Char) (card : Card) (qty : Nat) :
    List (List Char × List Char) → Except (List Char) Unit
  | [] => .ok ()
  | (url, suffix) :: rest =>
    let base := make_filename card qty suffix
    let ext := infer_extension_from_url url
    match download url (outDir ++ '/' :: (base ++ ext)) with
    | .error m => .error m
    | .ok _ => downloadPairs download outDir card qty rest

def processCard (download : List Char → List Char → Except (List Char) Unit)
    (outDir size : List Char) (cq : Card × Nat) : Except (List Char) Unit :=
  match pick_image_uris cq.1 size with
  | .error m => .error m
  | .ok pairs => downloadPairs download outDir cq.1 cq.2 pairs

def download_all (download : List Char → List Char → Except (List Char) Unit)
    (outDir size : List Char) (resolved : List (Card × Nat)) :
    List (List Char × List Char) :=
  resolved.foldl (fun errors cq =>
    match processCard download outDir size cq with
    | .ok _ => errors
    | .error m => errors ++ [(cq.1.name.getD ("Unknown".toList), m)]) []

/-! Concrete material used by witnesses and counterexamples. -/

def cardBolt : Card :=
  { name := some ("Bolt".toList), set := some ("lea".toList),
    collector_number := some ("162".toList), image_uris := none, card_faces := none }

def cardPngOnly : Card :=
  { name := some ("Bolt".toList), set := none, collector_number := none,
    image_uris := some [("png".toList, "http-a.png".toList)], card_faces := none }

def entryAlpha : CardEntry := ⟨3, "Alpha".toList, none, none⟩

def entryBeta : CardEntry := ⟨5, "Beta".toList, none, none⟩

def identAlpha : Identifier :=
  { name := some ("Alpha".toList), set := none, collector_number := none }

def identBeta : Identifier :=
  { name := some ("Beta".toList), set := none, collector_number := none }

def cardBeta : Card :=
  { name := some ("Beta".toList), set := some ("xxx".toList),
    collector_number := some ("7".toList), image_uris := none, card_faces := none }

/-- Lookup oracle for which the first identifier of the batch is not found
and the second resolves. -/
def oracleAB (i : Identifier) : Option Card :=
  if i = identBeta then some cardBeta else none

/-! Association-list views of the grouping dictionary. -/

def lookupG (gs : List (List Char × List CardEntry)) (k : List Char) :
    List CardEntry :=
  match gs with
  | [] => []
  | (k2, es) :: rest => if k2 == k then es else lookupG rest k

def keysG (gs : List (List Char × List CardEntry)) : List (List Char) :=
  gs.map Prod.fst

/-! Side-condition predicates used to state the template theorems about the
parser: a plain card name is a nonempty trimmed string of ASCII letters and
spaces. -/

def plainNameB (name : List Char) : Bool :=
  !name.isEmpty &&
  name.all (fun c => isLetterC c || c == ' ') &&
  (match name with | c :: _ => !(c == ' ') | [] => false) &&
  (match name.reverse with | c :: _ => !(c == ' ') | [] => false)

/-- The name does not begin with a lone x or X token: if its first character
is an x in either case, a second, non-whitespace character follows. -/
def xSafeB (name : List Char) : Bool :=
  match name with
  | c :: t =>
    !(c == 'x' || c == 'X') ||
    (match t with | c2 :: _ => !isSpaceC c2 | [] => false)
  | [] => false

/-- The first character, if any, is not whitespace. -/
def headNotSpace (s : List Char) : Prop :=
  ∀ c t, s = c :: t → isSpaceC c = false

/-- The final character, if any, is not whitespace. -/
def lastNotSpace (s : List Char) : Prop := headNotSpace s.reverse

/-! Sanity checks of the parser on concrete lines. -/

example :
    parse_deck_line ("4 Lightning Bolt (lea) 162".toList) =
      some ⟨4, "Lightning Bolt".toList, some ("lea".toList), some ("162".toList)⟩ := by
  decide

example : parse_deck_line ("2x Counterspell".toList) =
    some ⟨2, "Counterspell".toList, none, none⟩ := by decide

example : parse_deck_line ("// comment".toList) = none := by decide

example : parse_deck_line ("Sideboard".toList) = none := by decide

example : parse_deck_line ("1 Brainstorm".toList) =
    some ⟨1, "Brainstorm".toList, none, none⟩ := by decide

example : parse_deck_line ("Fire // Ice (apc) 128".toList) =
    some ⟨1, "Fire // Ice".toList, some ("apc".toList), some ("128".toList)⟩ := by
  decide

/-! Character-class facts. -/

theorem isDigitC_range {c : Char} (h : isDigitC c = true) :
    48 ≤ c.toNat ∧ c.toNat ≤ 57 := of_decide_eq_true h

theorem isUpperC_range {c : Char} (h : isUpperC c = true) :
    65 ≤ c.toNat ∧ c.toNat ≤ 90 := of_decide_eq_true h

theorem isLowerC_range {c : Char} (h : isLowerC c = true) :
    97 ≤ c.toNat ∧ c.toNat ≤ 122 := of_decide_eq_true h

theorem isLetterC_range {c : Char} (h : isLetterC c = true) :
    65 ≤ c.toNat ∧ c.toNat ≤ 122 := by
  unfold isLetterC at h
  rcases (by simpa using h : isUpperC c = true ∨ isLowerC c = true) with h1 | h1
  · have := isUpperC_range h1
    omega
  · have := isLowerC_range h1
    omega

theorem isAlnumC_range {c : Char} (h : isAlnumC c = true) :
    48 ≤ c.toNat ∧ c.toNat ≤ 122 := by
  unfold isAlnumC at h
  rcases (by simpa using h : isDigitC c = true ∨ isLetterC c = true) with h1 | h1
  · have := isDigitC_range h1
    omega
  · have := isLetterC_range h1
    omega

theorem isSpaceC_toNat {c : Char} (h : isSpaceC c = true) : c.toNat ≤ 32 := by
  simp only [isSpaceC, Bool.or_eq_true, beq_iff_eq] at h
  rcases h with ((((h | h) | h) | h) | h) | h <;> subst h <;> decide

theorem beq_char_of_toNat_ne {c d : Char} (h : c.toNat ≠ d.toNat) : (c == d) = false := by
  rw [beq_eq_false_iff_ne]
  intro he
  exact h (by rw [he])

theorem not_space_of_ge {c : Char} (h : 33 ≤ c.toNat) : isSpaceC c = false := by
  cases hs : isSpaceC c with
  | false => rfl
  | true =>
    have := isSpaceC_toNat hs
    omega

theorem digit_not_space {c : Char} (h : isDigitC c = true) : isSpaceC c = false :=
  not_space_of_ge (by have := isDigitC_range h; omega)

theorem alnum_not_space {c : Char} (h : isAlnumC c = true) : isSpaceC c = false :=
  not_space_of_ge (by have := isAlnumC_range h; omega)

theorem nameChar_cases {c : Char} (h : (isLetterC c || c == ' ') = true) :
    isLetterC c = true ∨ c = ' ' := by
  simpa using h

theorem nameChar_not_digit {c : Char} (h : (isLetterC c || c == ' ') = true) :
    isDigitC c = false := by
  cases hd : isDigitC c with
  | false => rfl
  | true =>
    rcases nameChar_cases h with h1 | h1
    · have := isLetterC_range h1
      have := isDigitC_range hd
      omega
    · subst h1
      exact absurd hd (by decide)

theorem nameChar_beq_false {c : Char} (h : (isLetterC c || c == ' ') = true)
    (d : Char) (hd : d.toNat < 65 ∧ d.toNat ≠ 32) : (c == d) = false := by
  rcases nameChar_cases h with h1 | h1
  · exact beq_char_of_toNat_ne (by have := isLetterC_range h1; omega)
  · subst h1
    exact beq_char_of_toNat_ne (by
      have h32 : (' ' : Char).toNat = 32 := rfl
      omega)

theorem alnum_beq_false_low {c : Char} (h : isAlnumC c = true) (d : Char)
    (hd : d.toNat < 48) : (c == d) = false :=
  beq_char_of_toNat_ne (by have := isAlnumC_range h; omega)

theorem digit_beq_false {c : Char} (h : isDigitC c = true) (d : Char)
    (hd : d.toNat < 48 ∨ 57 < d.toNat) : (c == d) = false :=
  beq_char_of_toNat_ne (by have := isDigitC_range h; omega)

theorem letter_not_digit {c : Char} (h : isLetterC c = true) : isDigitC c = false := by
  cases hd : isDigitC c with
  | false => rfl
  | true =>
    have := isLetterC_range h
    have := isDigitC_range hd
    omega

/-! Scanning lemmas for takeWhile, dropWhile and the trims. -/

theorem takeWhile_all_eq {p : Char → Bool} (l : List Char) (h : l.all p = true) :
    l.takeWhile p = l := by
  induction l with
  | nil => rfl
  | cons c cs ih =>
    simp only [List.all_cons, Bool.and_eq_true] at h
    rw [List.takeWhile_cons_of_pos h.1, ih h.2]

theorem dropWhile_all_eq {p : Char → Bool} (l : List Char) (h : l.all p = true) :
    l.dropWhile p = [] := by
  induction l with
  | nil => rfl
  | cons c cs ih =>
    simp only [List.all_cons, Bool.and_eq_true] at h
    rw [List.dropWhile_cons_of_pos h.1, ih h.2]

theorem takeWhile_append_stop {p : Char → Bool} (l : List Char) (c : Char)
    (rs : List Char) (hall : l.all p = true) (hc : p c = false) :
    (l ++ c :: rs).takeWhile p = l := by
  induction l with
  | nil =>
    rw [List.nil_append]
    exact List.takeWhile_cons_of_neg (by simp [hc])
  | cons a l ih =>
    simp only [List.all_cons, Bool.and_eq_true] at hall
    rw [List.cons_append, List.takeWhile_cons_of_pos hall.1, ih hall.2]

theorem dropWhile_append_stop {p : Char → Bool} (l : List Char) (c : Char)
    (rs : List Char) (hall : l.all p = true) (hc : p c = false) :
    (l ++ c :: rs).dropWhile p = c :: rs := by
  induction l with
  | nil =>
    rw [List.nil_append]
    exact List.dropWhile_cons_of_neg (by simp [hc])
  | cons a l ih =>
    simp only [List.all_cons, Bool.and_eq_true] at hall
    rw [List.cons_append, List.dropWhile_cons_of_pos hall.1, ih hall.2]

theorem dropWhile_append_all {p : Char → Bool} (l r : List Char)
    (h : l.all p = true) : (l ++ r).dropWhile p = r.dropWhile p := by
  induction l with
  | nil => rfl
  | cons c cs ih =>
    simp only [List.all_cons, Bool.and_eq_true] at h
    rw [List.cons_append, List.dropWhile_cons_of_pos h.1, ih h.2]

theorem dropWhile_eq_self_hns (s : List Char) (h : headNotSpace s) :
    s.dropWhile isSpaceC = s := by
  cases s with
  | nil => rfl
  | cons c cs => exact List.dropWhile_cons_of_neg (by simp [h c cs rfl])

theorem headNotSpace_cons (c : Char) (t : List Char) (hc : isSpaceC c = false) :
    headNotSpace (c :: t) := by
  intro c2 t2 he
  injection he with h1 _
  rw [← h1]
  exact hc

theorem headNotSpace_append (l r : List Char) (hne : l ≠ []) (h : headNotSpace l) :
    headNotSpace (l ++ r) := by
  cases l with
  | nil => exact absurd rfl hne
  | cons c cs =>
    rw [List.cons_append]
    exact headNotSpace_cons c (cs ++ r) (h c cs rfl)

theorem lastNotSpace_append (l r : List Char) (hne : r ≠ []) (h : lastNotSpace r) :
    lastNotSpace (l ++ r) := by
  unfold lastNotSpace at h ⊢
  rw [List.reverse_append]
  exact headNotSpace_append r.reverse l.reverse
    (fun hrev => hne (by simpa using hrev)) h

theorem trimLeft_eq_self (s : List Char) (h : headNotSpace s) : trimLeft s = s :=
  dropWhile_eq_self_hns s h

theorem trimRight_eq_self (s : List Char) (h : lastNotSpace s) : trimRight s = s := by
  unfold trimRight
  rw [dropWhile_eq_self_hns s.reverse h, List.reverse_reverse]

theorem trim_eq_self (s : List Char) (h1 : headNotSpace s) (h2 : lastNotSpace s) :
    trim s = s := by
  unfold trim
  rw [trimRight_eq_self s h2, trimLeft_eq_self s h1]

theorem trim_cons_space (rest : List Char) (h1 : headNotSpace rest)
    (h2 : lastNotSpace rest) : trim (' ' :: rest) = rest := by
  cases rest with
  | nil => rfl
  | cons c cs =>
    unfold trim
    have hr : trimRight (' ' :: c :: cs) = ' ' :: c :: cs := by
      apply trimRight_eq_self
      unfold lastNotSpace
      rw [List.reverse_cons]
      exact headNotSpace_append (c :: cs).reverse [' '] (by simp) h2
    rw [hr]
    unfold trimLeft
    rw [List.dropWhile_cons_of_pos (by decide)]
    exact dropWhile_eq_self_hns _ h1

theorem trim_append_spaces (s w : List Char) (hw : w.all isSpaceC = true)
    (h1 : headNotSpace s) (h2 : lastNotSpace s) : trim (s ++ w) = s := by
  unfold trim
  have hr : trimRight (s ++ w) = s := by
    unfold trimRight
    rw [List.reverse_append, dropWhile_append_all _ _ (by simpa using hw),
      dropWhile_eq_self_hns s.reverse h2, List.reverse_reverse]
  rw [hr]
  exact trimLeft_eq_self s h1

theorem headNotSpace_of_all (s : List Char) (hall : s.all (fun c => !isSpaceC c) = true) :
    headNotSpace s := by
  intro c t he
  subst he
  simp only [List.all_cons, Bool.and_eq_true] at hall
  simpa using hall.1

/-! Suffix decomposition over an append. -/

theorem suffix_append_cases {α : Type} (t l r : List α) (h : t <:+ l ++ r) :
    t <:+ r ∨ ∃ u, u ≠ [] ∧ u <:+ l ∧ t = u ++ r := by
  induction l with
  | nil => left; simpa using h
  | cons a l ih =>
    rw [List.cons_append] at h
    rcases List.suffix_cons_iff.mp h with h1 | h1
    · right
      exact ⟨a :: l, by simp, List.suffix_refl _, by rw [h1, List.cons_append]⟩
    · rcases ih h1 with h2 | ⟨u, h3, h4, h5⟩
      · left
        exact h2
      · right
        exact ⟨u, h3, h4.trans (List.suffix_cons a l), h5⟩

/-! Identity of the foil-marker scan on strings without any marker. -/

theorem foilStarAt_none (t : List Char)
    (h : ∀ c r, t = c :: r → (c == '*') = false) : foilStarAt t = none := by
  rcases t with _ | ⟨a, _ | ⟨b, _ | ⟨c, rest⟩⟩⟩
  · rfl
  · rfl
  · rfl
  · simp [foilStarAt, h a (b :: c :: rest) rfl]

theorem foilParenAt_none_head (t : List Char)
    (h : ∀ c r, t = c :: r → (c == '(') = false) : foilParenAt t = none := by
  rcases t with _ | ⟨a, _ | ⟨b, _ | ⟨c, _ | ⟨d, _ | ⟨e, _ | ⟨f, rest⟩⟩⟩⟩⟩⟩
  · rfl
  · rfl
  · rfl
  · rfl
  · rfl
  · rfl
  · simp [foilParenAt, h a (b :: c :: d :: e :: f :: rest) rfl]

theorem foilSubF_id (f : Nat) (s : List Char)
    (h : ∀ t, t <:+ s → foilStarAt t = none ∧ foilParenAt t = none) :
    foilSubF f s = s := by
  induction f generalizing s with
  | zero => rfl
  | succ f ih =>
    cases s with
    | nil => rfl
    | cons c cs =>
      have hs := h (c :: cs) (List.suffix_refl _)
      simp only [foilSubF, hs.1, hs.2]
      exact congrArg (fun l => c :: l)
        (ih cs (fun t ht => h t (ht.trans (List.suffix_cons c cs))))

theorem foilParen_none_noparen (s : List Char) (h : ∀ c ∈ s, (c == '(') = false) :
    ∀ t, t <:+ s → foilParenAt t = none := by
  intro t ht
  apply foilParenAt_none_head
  intro c r hcr
  exact h c (ht.subset (by rw [hcr]; exact List.mem_cons_self _ _))

/-- No parenthesised Foil marker matches at the opening parenthesis of a
legitimate 2-5 character set token other than foil. -/
theorem foilParen_none_sethead (set tail2 : List Char) (hall : set.all isAlnumC = true)
    (h2 : 2 ≤ set.length) (h5 : set.length ≤ 5) (hfoil : isFoilWordB set = false) :
    foilParenAt ('(' :: (set ++ ')' :: tail2)) = none := by
  rcases set with _ | ⟨a, _ | ⟨b, _ | ⟨c, _ | ⟨d, _ | ⟨e, rest⟩⟩⟩⟩⟩
  · simp at h2
  · simp at h2
  · rcases tail2 with _ | ⟨x, _ | ⟨y, r⟩⟩
    · rfl
    · rfl
    · have hi : ((')' : Char) == 'i') = false := by decide
      have hI : ((')' : Char) == 'I') = false := by decide
      simp [foilParenAt, isFoilChars, hi, hI]
  · rcases tail2 with _ | ⟨x, r⟩
    · rfl
    · have hl : ((')' : Char) == 'l') = false := by decide
      have hL : ((')' : Char) == 'L') = false := by decide
      simp [foilParenAt, isFoilChars, hl, hL]
  · have hfc : isFoilChars a b c d = false := hfoil
    simp [foilParenAt, hfc]
  · rcases rest with _ | ⟨f, rest2⟩
    · simp only [List.all_cons, Bool.and_eq_true] at hall
      have he : (e == ')') = false :=
        alnum_beq_false_low hall.2.2.2.2.1 ')' (by decide)
      simp [foilParenAt, he]
    · simp at h5

/-- Identity of the foil scan on a string split around one set token. -/
theorem foilParen_none_split (P Q : List Char)
    (hP : ∀ c ∈ P, (c == '(') = false) (hQ : ∀ c ∈ Q, (c == '(') = false)
    (hhead : foilParenAt ('(' :: Q) = none) :
    ∀ t, t <:+ P ++ '(' :: Q → foilParenAt t = none := by
  intro t ht
  rcases suffix_append_cases t P ('(' :: Q) ht with h1 | ⟨u, hu, hul, rfl⟩
  · rcases List.suffix_cons_iff.mp h1 with h2 | h2
    · rw [h2]
      exact hhead
    · apply foilParenAt_none_head
      intro c r hcr
      exact hQ c (h2.subset (by rw [hcr]; exact List.mem_cons_self _ _))
  · apply foilParenAt_none_head
    intro c r hcr
    cases u with
    | nil => exact absurd rfl hu
    | cons c0 u2 =>
      rw [List.cons_append] at hcr
      injection hcr with hc1 _
      rw [← hc1]
      exact hP c0 (hul.subset (List.mem_cons_self _ _))

theorem foilSub_id_of (s : List Char)
    (hstar : ∀ c ∈ s, (c == '*') = false)
    (hparen : ∀ t, t <:+ s → foilParenAt t = none) :
    foilSub s = s := by
  apply foilSubF_id
  intro t ht
  constructor
  · apply foilStarAt_none
    intro c r hcr
    exact hstar c (ht.subset (by rw [hcr]; exact List.mem_cons_self _ _))
  · exact hparen t ht

/-! Identity of the face-separator normalisation on slash-free strings. -/

theorem slashMatchAt_none (t : List Char) (h : ∀ c ∈ t, (c == '/') = false) :
    slashMatchAt t = none := by
  unfold slashMatchAt
  cases hdw : t.dropWhile isSpaceC with
  | nil => rfl
  | cons c1 cs1 =>
    cases cs1 with
    | nil => rfl
    | cons c2 cs2 =>
      have hc1 : c1 ∈ t := by
        have hsub := List.dropWhile_sublist (p := isSpaceC) (l := t)
        exact hsub.subset (by rw [hdw]; exact List.mem_cons_self _ _)
      simp [h c1 hc1]

theorem slashNormF_id (f : Nat) (s : List Char)
    (h : ∀ t, t <:+ s → slashMatchAt t = none) : slashNormF f s = s := by
  induction f generalizing s with
  | zero => rfl
  | succ f ih =>
    cases s with
    | nil => rfl
    | cons c cs =>
      simp only [slashNormF, h (c :: cs) (List.suffix_refl _)]
      exact congrArg (fun l => c :: l)
        (ih cs (fun t ht => h t (ht.trans (List.suffix_cons c cs))))

theorem slashNorm_id (s : List Char) (hs : ∀ c ∈ s, (c == '/') = false) :
    slashNorm s = s :=
  slashNormF_id _ s (fun t ht => slashMatchAt_none t (fun c hc => hs c (ht.subset hc)))

/-! The set-code search on strings of the template shape. -/

theorem setMatchAt_none_head (t : List Char)
    (h : ∀ c r, t = c :: r → (c == '(') = false) : setMatchAt t = none := by
  cases t with
  | nil => rfl
  | cons c cs => simp [setMatchAt, h c cs rfl]

theorem setSearch_none (s : List Char) (h : ∀ c ∈ s, (c == '(') = false) :
    setSearch s = none := by
  induction s with
  | nil => rfl
  | cons c cs ih =>
    simp only [setSearch]
    rw [setMatchAt_none_head _ (fun c2 r2 he => by
      injection he with he1 _
      rw [← he1]
      exact h c (List.mem_cons_self _ _))]
    rw [ih (fun c2 hc2 => h c2 (List.mem_cons_of_mem _ hc2))]
    rfl

theorem setMatchAt_hit (set after : List Char) (hall : set.all isAlnumC = true)
    (h2 : 2 ≤ set.length) (h5 : set.length ≤ 5) :
    setMatchAt ('(' :: (set ++ ')' :: after)) = some (set, after) := by
  have htw : (set ++ ')' :: after).takeWhile isAlnumC = set :=
    takeWhile_append_stop set ')' after hall (by decide)
  have hdw : (set ++ ')' :: after).dropWhile isAlnumC = ')' :: after :=
    dropWhile_append_stop set ')' after hall (by decide)
  simp [setMatchAt, htw, hdw, h2, h5]

theorem setSearch_append (l r : List Char) (hl : ∀ c ∈ l, (c == '(') = false) :
    setSearch (l ++ r) = (setSearch r).map (fun x => (l ++ x.1, x.2.1, x.2.2)) := by
  induction l with
  | nil =>
    rw [List.nil_append]
    cases h : setSearch r with
    | none => rfl
    | some x => simp
  | cons c cs ih =>
    rw [List.cons_append]
    simp only [setSearch]
    rw [setMatchAt_none_head _ (fun c2 r2 he => by
      injection he with he1 _
      rw [← he1]
      exact hl c (List.mem_cons_self _ _))]
    rw [ih (fun c2 hc2 => hl c2 (List.mem_cons_of_mem _ hc2))]
    cases setSearch r <;> simp

theorem setSearch_template (name2 set after : List Char)
    (hn : ∀ c ∈ name2, (c == '(') = false)
    (hall : set.all isAlnumC = true) (h2 : 2 ≤ set.length) (h5 : set.length ≤ 5) :
    setSearch (name2 ++ ('(' :: (set ++ ')' :: after))) = some (name2, set, after) := by
  rw [setSearch_append name2 ('(' :: (set ++ ')' :: after)) hn]
  have hstep : setSearch ('(' :: (set ++ ')' :: after)) = some ([], set, after) := by
    simp only [setSearch]
    rw [setMatchAt_hit set after hall h2 h5]
  rw [hstep]
  simp

/-! The collector-number search on strings of the template shape. -/

theorem numMatchAt_nondigit (pnw : Bool) (c : Char) (cs : List Char)
    (hc : isDigitC c = false) : numMatchAt pnw (c :: cs) = none := by
  unfold numMatchAt
  cases pnw with
  | false => rfl
  | true =>
    have ht : (c :: cs).takeWhile isDigitC = [] :=
      List.takeWhile_cons_of_neg (by simp [hc])
    simp [ht]

theorem numMatchAt_hit (dg suf : List Char) (hdg : dg ≠ [])
    (hall : dg.all isDigitC = true)
    (hsuf : suf = [] ∨ ∃ c, suf = [c] ∧ isLetterC c = true) :
    numMatchAt true (dg ++ suf) = some (dg ++ suf) := by
  have h3 : dg.isEmpty = false := by
    cases dg with
    | nil => exact absurd rfl hdg
    | cons a l => rfl
  unfold numMatchAt
  rcases hsuf with rfl | ⟨c, rfl, hc⟩
  · rw [List.append_nil]
    have h1 : dg.takeWhile isDigitC = dg := takeWhile_all_eq dg hall
    have h2 : dg.dropWhile isDigitC = [] := dropWhile_all_eq dg hall
    simp [h1, h2, h3]
  · have h1 : (dg ++ [c]).takeWhile isDigitC = dg :=
      takeWhile_append_stop dg c [] hall (letter_not_digit hc)
    have h2 : (dg ++ [c]).dropWhile isDigitC = [c] :=
      dropWhile_append_stop dg c [] hall (letter_not_digit hc)
    simp [h1, h2, h3, hc]

theorem numSearchGo_append (l r : List Char) (pw : Bool)
    (hl : ∀ c ∈ l, isDigitC c = false) :
    numSearchGo pw (l ++ r) =
      (numSearchGo (l.foldl (fun _ c => isWordC c) pw) r).map
        (fun x => (l ++ x.1, x.2)) := by
  induction l generalizing pw with
  | nil =>
    rw [List.nil_append]
    cases h : numSearchGo pw r with
    | none => simp [h]
    | some x => simp [h]
  | cons c cs ih =>
    rw [List.cons_append]
    simp only [numSearchGo]
    rw [numMatchAt_nondigit _ c _ (hl c (List.mem_cons_self _ _))]
    rw [ih (isWordC c) (fun c2 hc2 => hl c2 (List.mem_cons_of_mem _ hc2))]
    simp only [List.foldl_cons]
    cases numSearchGo (cs.foldl (fun _ c => isWordC c) (isWordC c)) r <;> simp

theorem numSearch_template (pre num dg suf : List Char)
    (hpre : ∀ c ∈ pre, isDigitC c = false)
    (hlast : pre.foldl (fun _ c => isWordC c) false = false)
    (hnum : num = dg ++ suf) (hdg : dg ≠ []) (hall : dg.all isDigitC = true)
    (hsuf : suf = [] ∨ ∃ c, suf = [c] ∧ isLetterC c = true) :
    numSearch (pre ++ num) = some (pre, num) := by
  unfold numSearch
  rw [numSearchGo_append pre num false hpre, hlast]
  subst hnum
  obtain ⟨c0, dgr, rfl⟩ : ∃ c0 r, dg = c0 :: r := by
    cases dg with
    | nil => exact absurd rfl hdg
    | cons a l => exact ⟨a, l, rfl⟩
  have hm : numMatchAt true (c0 :: (dgr ++ suf)) = some ((c0 :: dgr) ++ suf) := by
    rw [← List.cons_append]
    exact numMatchAt_hit (c0 :: dgr) suf hdg hall hsuf
  rw [show (c0 :: dgr) ++ suf = c0 :: (dgr ++ suf) from rfl]
  simp only [numSearchGo]
  rw [show (!false) = true from rfl, hm]
  simp

theorem numSearch_none (s : List Char) (h : ∀ c ∈ s, isDigitC c = false) :
    numSearch s = none := by
  unfold numSearch
  have aux : ∀ (l : List Char) (pw : Bool), (∀ c ∈ l, isDigitC c = false) →
      numSearchGo pw l = none := by
    intro l
    induction l with
    | nil => intro pw _; rfl
    | cons c cs ih =>
      intro pw hl
      simp only [numSearchGo]
      rw [numMatchAt_nondigit _ c _ (hl c (List.mem_cons_self _ _))]
      rw [ih (isWordC c) (fun c2 hc2 => hl c2 (List.mem_cons_of_mem _ hc2))]
      rfl
  exact aux s false h

/-! The quantity-prefix split on strings of the template shape. -/

theorem list_isEmpty_false (d : List Char) (hd : d ≠ []) : d.isEmpty = false := by
  cases d with
  | nil => exact absurd rfl hd
  | cons a l => rfl

theorem qtySplit_x_form (d rest1 : List Char) (hd : d ≠ [])
    (hall : d.all isDigitC = true) :
    qtySplit (d ++ 'x' :: ' ' :: rest1) = some (digitsVal d, trim (' ' :: rest1)) := by
  have h1 : (d ++ 'x' :: ' ' :: rest1).takeWhile isDigitC = d :=
    takeWhile_append_stop d 'x' _ hall (by decide)
  have h2 : (d ++ 'x' :: ' ' :: rest1).dropWhile isDigitC = 'x' :: ' ' :: rest1 :=
    dropWhile_append_stop d 'x' _ hall (by decide)
  have h3 : ('x' :: ' ' :: rest1).dropWhile isSpaceC = 'x' :: ' ' :: rest1 :=
    List.dropWhile_cons_of_neg (by decide)
  have h5 := list_isEmpty_false d hd
  have h6 : isSpaceC ' ' = true := rfl
  simp [qtySplit, h1, h2, h3, h5, h6]

theorem qtySplit_space_form (d : List Char) (c0 : Char) (rs : List Char)
    (hd : d ≠ []) (hall : d.all isDigitC = true) (hc0 : isSpaceC c0 = false)
    (hguard : ((c0 == 'x' || c0 == 'X') &&
      (match rs with | v0 :: _ => isSpaceC v0 | [] => false)) = false) :
    qtySplit (d ++ ' ' :: c0 :: rs) = some (digitsVal d, trim (c0 :: rs)) := by
  have h1 : (d ++ ' ' :: c0 :: rs).takeWhile isDigitC = d :=
    takeWhile_append_stop d ' ' _ hall (by decide)
  have h2 : (d ++ ' ' :: c0 :: rs).dropWhile isDigitC = ' ' :: c0 :: rs :=
    dropWhile_append_stop d ' ' _ hall (by decide)
  have h3 : (' ' :: c0 :: rs).dropWhile isSpaceC = c0 :: rs := by
    rw [List.dropWhile_cons_of_pos (by decide)]
    exact List.dropWhile_cons_of_neg (by simp [hc0])
  have h4 : (' ' :: c0 :: rs).takeWhile isSpaceC = [' '] := by
    rw [List.takeWhile_cons_of_pos (by decide)]
    rw [List.takeWhile_cons_of_neg (by simp [hc0])]
  have h5 := list_isEmpty_false d hd
  simp [qtySplit, h1, h2, h3, h4, h5, hguard]

/-! Facts extracted from the plain-name hypothesis. -/

theorem plainName_facts (name : List Char) (h : plainNameB name = true) :
    name ≠ [] ∧ (∀ c ∈ name, (isLetterC c || c == ' ') = true) ∧
    headNotSpace name ∧ lastNotSpace name := by
  unfold plainNameB at h
  simp only [Bool.and_eq_true] at h
  obtain ⟨⟨⟨hne, hall⟩, hhead⟩, hrev⟩ := h
  have hallm : ∀ c ∈ name, (isLetterC c || c == ' ') = true := List.all_eq_true.mp hall
  have hne2 : name ≠ [] := by
    intro hh
    rw [hh] at hne
    simp at hne
  refine ⟨hne2, hallm, ?_, ?_⟩
  · intro c t he
    rw [he] at hhead
    simp only at hhead
    have hcm := hallm c (by rw [he]; exact List.mem_cons_self _ _)
    rcases nameChar_cases hcm with h1 | h1
    · exact not_space_of_ge (by have := isLetterC_range h1; omega)
    · subst h1
      simp at hhead
  · intro c t he
    rw [he] at hrev
    simp only at hrev
    have hcm := hallm c (by rw [← List.mem_reverse, he]; exact List.mem_cons_self _ _)
    rcases nameChar_cases hcm with h1 | h1
    · exact not_space_of_ge (by have := isLetterC_range h1; omega)
    · subst h1
      simp at hrev

theorem all_digit_alnum (l : List Char) (h : l.all isDigitC = true) :
    l.all isAlnumC = true := by
  rw [List.all_eq_true] at h ⊢
  intro c hc
  unfold isAlnumC
  simp [h c hc]

theorem headNotSpace_alnum (l : List Char) (h : l.all isAlnumC = true) :
    headNotSpace l := by
  intro c t he
  exact alnum_not_space
    ((List.all_eq_true.mp h) c (by rw [he]; exact List.mem_cons_self _ _))

theorem lastNotSpace_alnum (l : List Char) (h : l.all isAlnumC = true) :
    lastNotSpace l := by
  intro c t he
  exact alnum_not_space ((List.all_eq_true.mp h) c
    (by rw [← List.mem_reverse, he]; exact List.mem_cons_self _ _))

theorem append_ne_nil_left (l r : List Char) (h : l ≠ []) : l ++ r ≠ [] := by
  cases l with
  | nil => exact absurd rfl h
  | cons a t => simp

/-! Correctness of the decimal rendering. -/

theorem digitsVal_snoc (l : List Char) (c : Char) :
    digitsVal (l ++ [c]) = digitsVal l * 10 + (c.toNat - 48) := by
  unfold digitsVal
  rw [List.foldl_append]
  rfl

theorem digitChar_spec (n : Nat) (h : n < 10) :
    isDigitC (digitChar n) = true ∧ (digitChar n).toNat - 48 = n := by
  interval_cases n <;> exact ⟨by decide, by decide⟩

theorem natDigitsF_spec (fuel n : Nat) (h : n < fuel) :
    (natDigitsF fuel n).all isDigitC = true ∧ natDigitsF fuel n ≠ [] ∧
    digitsVal (natDigitsF fuel n) = n := by
  induction fuel generalizing n with
  | zero => omega
  | succ fuel ih =>
    by_cases h10 : n < 10
    · have hds := digitChar_spec n h10
      simp only [natDigitsF, if_pos h10]
      refine ⟨by simp [hds.1], by simp, ?_⟩
      have : digitsVal [digitChar n] = (digitChar n).toNat - 48 := by
        unfold digitsVal
        simp
      rw [this, hds.2]
    · have hdiv : n / 10 < n := Nat.div_lt_self (by omega) (by omega)
      have hn10 : n / 10 < fuel := by omega
      obtain ⟨ha, hb, hc⟩ := ih (n / 10) hn10
      have hm : n % 10 < 10 := Nat.mod_lt _ (by omega)
      have hds := digitChar_spec (n % 10) hm
      simp only [natDigitsF, if_neg h10]
      refine ⟨by simp [List.all_append, ha, hds.1], by simp, ?_⟩
      rw [digitsVal_snoc, hc, hds.2]
      omega

theorem natDigits_spec (n : Nat) :
    (natDigits n).all isDigitC = true ∧ natDigits n ≠ [] ∧
    digitsVal (natDigits n) = n :=
  natDigitsF_spec (n + 1) n (by omega)

/-! The comment and section-header guard never fires on a digit-headed line. -/

theorem startsWithAny_digit (c : Char) (cs : List Char) (hc : isDigitC c = true) :
    startsWithAny (c :: cs) = false := by
  have hr := isDigitC_range hc
  have e1 : ("Sideboard".toList) = 'S' :: "ideboard".toList := rfl
  have e2 : ("Commander".toList) = 'C' :: "ommander".toList := rfl
  have e3 : ("Companion".toList) = 'C' :: "ompanion".toList := rfl
  have e4 : ("Maybeboard".toList) = 'M' :: "aybeboard".toList := rfl
  have h1 : (('#' : Char) == c) = false := beq_char_of_toNat_ne (by
    have h0 : ('#' : Char).toNat = 35 := rfl
    omega)
  have h2 : (('/' : Char) == c) = false := beq_char_of_toNat_ne (by
    have h0 : ('/' : Char).toNat = 47 := rfl
    omega)
  have h3 : (('S' : Char) == c) = false := beq_char_of_toNat_ne (by
    have h0 : ('S' : Char).toNat = 83 := rfl
    omega)
  have h4 : (('C' : Char) == c) = false := beq_char_of_toNat_ne (by
    have h0 : ('C' : Char).toNat = 67 := rfl
    omega)
  have h5 : (('M' : Char) == c) = false := beq_char_of_toNat_ne (by
    have h0 : ('M' : Char).toNat = 77 := rfl
    omega)
  simp [startsWithAny, e1, e2, e3, e4, List.isPrefixOf, h1, h2, h3, h4, h5]

theorem startsWithAny_append_digit (d rest : List Char) (hd : d ≠ [])
    (hall : d.all isDigitC = true) : startsWithAny (d ++ rest) = false := by
  cases d with
  | nil => exact absurd rfl hd
  | cons c0 d2 =>
    rw [List.cons_append]
    simp only [List.all_cons, Bool.and_eq_true] at hall
    exact startsWithAny_digit c0 _ hall.1

/-! The set-and-collector-number stage on a full template remainder. -/

theorem parseRest_template (q : Nat) (name sc num dg suf : List Char)
    (hname : plainNameB name = true) (hsall : sc.all isAlnumC = true)
    (hs2 : 2 ≤ sc.length) (hs5 : sc.length ≤ 5)
    (hnum : num = dg ++ suf) (hdg : dg ≠ []) (hdgall : dg.all isDigitC = true)
    (hsuf : suf = [] ∨ ∃ c, suf = [c] ∧ isLetterC c = true) :
    parseRest q (name ++ ' ' :: '(' :: (sc ++ ')' :: ' ' :: num)) =
      some ⟨q, name, some (sc.map toLowerC), some num⟩ := by
  obtain ⟨hnne, hnall, hnh, hnl⟩ := plainName_facts name hname
  have hnumne : num ≠ [] := by
    subst hnum
    exact append_ne_nil_left dg suf hdg
  have hnumall : num.all isAlnumC = true := by
    subst hnum
    rcases hsuf with rfl | ⟨c, rfl, hc⟩
    · simpa using all_digit_alnum dg hdgall
    · simp [List.all_append, all_digit_alnum dg hdgall, isAlnumC, hc]
  have hn2 : ∀ c ∈ name ++ [' '], (c == '(') = false := by
    intro c hc
    rcases List.mem_append.mp hc with h1 | h1
    · exact nameChar_beq_false (hnall c h1) '(' (by decide)
    · have h2 : c = ' ' := by simpa using h1
      subst h2
      decide
  have hss : setSearch (name ++ ' ' :: '(' :: (sc ++ ')' :: ' ' :: num)) =
      some (name ++ [' '], sc, ' ' :: num) := by
    have hform : name ++ ' ' :: '(' :: (sc ++ ')' :: ' ' :: num) =
        (name ++ [' ']) ++ ('(' :: (sc ++ ')' :: ' ' :: num)) := by
      simp
    rw [hform]
    exact setSearch_template (name ++ [' ']) sc (' ' :: num) hn2 hsall hs2 hs5
  unfold parseRest
  rw [hss]
  show parseNum q (some (List.map toLowerC sc)) (trim ((name ++ [' ']) ++ ' ' :: num)) =
    some ⟨q, name, some (sc.map toLowerC), some num⟩
  have htr : trim ((name ++ [' ']) ++ ' ' :: num) = (name ++ [' ']) ++ ' ' :: num := by
    apply trim_eq_self
    · exact headNotSpace_append _ _ (append_ne_nil_left name [' '] hnne)
        (headNotSpace_append name [' '] hnne hnh)
    · have hform2 : (name ++ [' ']) ++ ' ' :: num = ((name ++ [' ']) ++ [' ']) ++ num := by
        simp
      rw [hform2]
      exact lastNotSpace_append _ num hnumne (lastNotSpace_alnum num hnumall)
  rw [htr]
  have hpre : ∀ c ∈ (name ++ [' ']) ++ [' '], isDigitC c = false := by
    intro c hc
    rcases List.mem_append.mp hc with h1 | h1
    · rcases List.mem_append.mp h1 with h2 | h2
      · exact nameChar_not_digit (hnall c h2)
      · have h3 : c = ' ' := by simpa using h2
        subst h3
        decide
    · have h3 : c = ' ' := by simpa using h1
      subst h3
      decide
  have hns : numSearch ((name ++ [' ']) ++ ' ' :: num) =
      some ((name ++ [' ']) ++ [' '], num) := by
    have hform3 : (name ++ [' ']) ++ ' ' :: num = ((name ++ [' ']) ++ [' ']) ++ num := by
      simp
    rw [hform3]
    exact numSearch_template ((name ++ [' ']) ++ [' ']) num dg suf hpre
      (by rw [List.foldl_append]; rfl) hnum hdg hdgall hsuf
  unfold parseNum
  rw [hns]
  show mkEntry q (some (List.map toLowerC sc)) (some num)
      (trim ((name ++ [' ']) ++ [' '])) =
    some ⟨q, name, some (sc.map toLowerC), some num⟩
  have htr2 : trim ((name ++ [' ']) ++ [' ']) = name := by
    have hform4 : (name ++ [' ']) ++ [' '] = name ++ [' ', ' '] := by simp
    rw [hform4]
    exact trim_append_spaces name [' ', ' '] (by decide) hnh hnl
  rw [htr2]
  unfold mkEntry
  rw [slashNorm_id name (fun c hc => nameChar_beq_false (hnall c hc) '/' (by decide))]
  rw [list_isEmpty_false name hnne]
  simp

/-- C2 counterexample: the set token Foil is stripped as a foil marker
before parsing, so the claimed output — set code foil — is not produced. -/
theorem c2_counterexample :
    parse_deck_line ("2x Bolt (Foil) 7".toList) =
      some ⟨2, "Bolt".toList, none, some ("7".toList)⟩ ∧
    parse_deck_line ("2x Bolt (Foil) 7".toList) ≠
      some ⟨2, "Bolt".toList, some ("foil".toList), some ("7".toList)⟩ := by
  decide

/-- C2 (amended): for every line of the template qty x name (set) num in
which qty is a positive decimal digit run, name is a plain card name — a
nonempty trimmed string of ASCII letters and spaces — set is a 2-5
character alphanumeric token that is not the word foil in any letter
casing, and num is a digit run optionally followed by one ASCII letter,
the parser returns exactly quantity qty, name name, the lowercased set
code, and collector number num; the set token is located and removed
before the collector number is searched on the remainder. -/
theorem c2_amended (d name sc num dg suf : List Char)
    (hd : d ≠ []) (hdall : d.all isDigitC = true) (hpos : 0 < digitsVal d)
    (hname : plainNameB name = true)
    (hsall : sc.all isAlnumC = true) (hs2 : 2 ≤ sc.length) (hs5 : sc.length ≤ 5)
    (hfoil : isFoilWordB sc = false)
    (hnum : num = dg ++ suf) (hdg : dg ≠ []) (hdgall : dg.all isDigitC = true)
    (hsuf : suf = [] ∨ ∃ c, suf = [c] ∧ isLetterC c = true) :
    parse_deck_line
        (d ++ 'x' :: ' ' :: (name ++ ' ' :: '(' :: (sc ++ ')' :: ' ' :: num))) =
      some ⟨digitsVal d, name, some (sc.map toLowerC), some num⟩ := by
  obtain ⟨hnne, hnall, hnh, hnl⟩ := plainName_facts name hname
  have hnumne : num ≠ [] := by
    subst hnum
    exact append_ne_nil_left dg suf hdg
  have hnumall : num.all isAlnumC = true := by
    subst hnum
    rcases hsuf with rfl | ⟨c, rfl, hc⟩
    · simpa using all_digit_alnum dg hdgall
    · simp [List.all_append, all_digit_alnum dg hdgall, isAlnumC, hc]
  have hLne : d ++ 'x' :: ' ' :: (name ++ ' ' :: '(' :: (sc ++ ')' :: ' ' :: num)) ≠
      [] := append_ne_nil_left d _ hd
  have hLh : headNotSpace
      (d ++ 'x' :: ' ' :: (name ++ ' ' :: '(' :: (sc ++ ')' :: ' ' :: num))) :=
    headNotSpace_append d _ hd (headNotSpace_alnum d (all_digit_alnum d hdall))
  have hLform :
      d ++ 'x' :: ' ' :: (name ++ ' ' :: '(' :: (sc ++ ')' :: ' ' :: num)) =
        (d ++ 'x' :: ' ' :: (name ++ ' ' :: '(' :: (sc ++ [')', ' ']))) ++ num := by
    simp
  have hLl : lastNotSpace
      (d ++ 'x' :: ' ' :: (name ++ ' ' :: '(' :: (sc ++ ')' :: ' ' :: num))) := by
    rw [hLform]
    exact lastNotSpace_append _ num hnumne (lastNotSpace_alnum num hnumall)
  have htrimL : trim
      (d ++ 'x' :: ' ' :: (name ++ ' ' :: '(' :: (sc ++ ')' :: ' ' :: num))) =
      d ++ 'x' :: ' ' :: (name ++ ' ' :: '(' :: (sc ++ ')' :: ' ' :: num)) :=
    trim_eq_self _ hLh hLl
  have hstar : ∀ c ∈ d ++ 'x' :: ' ' :: (name ++ ' ' :: '(' :: (sc ++ ')' :: ' ' :: num)),
      (c == '*') = false := by
    intro c hc
    rcases List.mem_append.mp hc with h1 | h1
    · exact digit_beq_false ((List.all_eq_true.mp hdall) c h1) '*' (by decide)
    · rcases List.mem_cons.mp h1 with rfl | h1
      · decide
      rcases List.mem_cons.mp h1 with rfl | h1
      · decide
      rcases List.mem_append.mp h1 with h2 | h1
      · exact nameChar_beq_false (hnall c h2) '*' (by decide)
      rcases List.mem_cons.mp h1 with rfl | h1
      · decide
      rcases List.mem_cons.mp h1 with rfl | h1
      · decide
      rcases List.mem_append.mp h1 with h2 | h1
      · exact alnum_beq_false_low ((List.all_eq_true.mp hsall) c h2) '*' (by decide)
      rcases List.mem_cons.mp h1 with rfl | h1
      · decide
      rcases List.mem_cons.mp h1 with rfl | h1
      · decide
      exact alnum_beq_false_low ((List.all_eq_true.mp hnumall) c h1) '*' (by decide)
  have hPQ : d ++ 'x' :: ' ' :: (name ++ ' ' :: '(' :: (sc ++ ')' :: ' ' :: num)) =
      (d ++ 'x' :: ' ' :: (name ++ [' '])) ++ '(' :: (sc ++ ')' :: ' ' :: num) := by
    simp
  have hP : ∀ c ∈ d ++ 'x' :: ' ' :: (name ++ [' ']), (c == '(') = false := by
    intro c hc
    rcases List.mem_append.mp hc with h1 | h1
    · exact digit_beq_false ((List.all_eq_true.mp hdall) c h1) '(' (by decide)
    · rcases List.mem_cons.mp h1 with rfl | h1
      · decide
      rcases List.mem_cons.mp h1 with rfl | h1
      · decide
      rcases List.mem_append.mp h1 with h2 | h2
      · exact nameChar_beq_false (hnall c h2) '(' (by decide)
      · have h3 : c = ' ' := by simpa using h2
        subst h3
        decide
  have hQ : ∀ c ∈ sc ++ ')' :: ' ' :: num, (c == '(') = false := by
    intro c hc
    rcases List.mem_append.mp hc with h1 | h1
    · exact alnum_beq_false_low ((List.all_eq_true.mp hsall) c h1) '(' (by decide)
    · rcases List.mem_cons.mp h1 with rfl | h1
      · decide
      rcases List.mem_cons.mp h1 with rfl | h1
      · decide
      exact alnum_beq_false_low ((List.all_eq_true.mp hnumall) c h1) '(' (by decide)
  have hparens : ∀ t,
      t <:+ d ++ 'x' :: ' ' :: (name ++ ' ' :: '(' :: (sc ++ ')' :: ' ' :: num)) →
      foilParenAt t = none := by
    intro t ht
    rw [hPQ] at ht
    exact foilParen_none_split _ _ hP hQ
      (foilParen_none_sethead sc (' ' :: num) hsall hs2 hs5 hfoil) t ht
  have hfoilid : foilSub
      (d ++ 'x' :: ' ' :: (name ++ ' ' :: '(' :: (sc ++ ')' :: ' ' :: num))) =
      d ++ 'x' :: ' ' :: (name ++ ' ' :: '(' :: (sc ++ ')' :: ' ' :: num)) :=
    foilSub_id_of _ hstar hparens
  have hr1h : headNotSpace (name ++ ' ' :: '(' :: (sc ++ ')' :: ' ' :: num)) :=
    headNotSpace_append name _ hnne hnh
  have hr1form : name ++ ' ' :: '(' :: (sc ++ ')' :: ' ' :: num) =
      (name ++ ' ' :: '(' :: (sc ++ [')', ' '])) ++ num := by
    simp
  have hr1l : lastNotSpace (name ++ ' ' :: '(' :: (sc ++ ')' :: ' ' :: num)) := by
    rw [hr1form]
    exact lastNotSpace_append _ num hnumne (lastNotSpace_alnum num hnumall)
  unfold parse_deck_line
  rw [htrimL, list_isEmpty_false _ hLne, startsWithAny_append_digit d _ hd hdall,
    hfoilid, htrimL]
  simp only [Bool.false_eq_true, if_false]
  unfold parseAfterFoil
  rw [qtySplit_x_form d _ hd hdall]
  show parseRest (digitsVal d)
      (trim (' ' :: (name ++ ' ' :: '(' :: (sc ++ ')' :: ' ' :: num)))) =
    some ⟨digitsVal d, name, some (sc.map toLowerC), some num⟩
  rw [trim_cons_space _ hr1h hr1l]
  exact parseRest_template (digitsVal d) name sc num dg suf hname hsall hs2 hs5
    hnum hdg hdgall hsuf

/-- C2 amended witness at the line 2x Lightning Bolt (lea) 162. -/
theorem c2_amended_witness :
    parse_deck_line
        (['2'] ++ 'x' :: ' ' ::
          ("Lightning Bolt".toList ++ ' ' :: '(' ::
            ("lea".toList ++ ')' :: ' ' :: "162".toList))) =
      some ⟨digitsVal ['2'], "Lightning Bolt".toList,
        some (("lea".toList).map toLowerC), some ("162".toList)⟩ :=
  c2_amended ['2'] ("Lightning Bolt".toList) ("lea".toList) ("162".toList)
    ("162".toList) [] (by decide) (by decide) (by decide) (by decide) (by decide)
    (by decide) (by decide) (by decide) rfl (by decide) (by decide) (Or.inl rfl)

/-! Lemmas for the serialisation round trip. -/

theorem map_toLowerC_id (s : List Char)
    (h : s.all (fun c => isDigitC c || isLowerC c) = true) :
    s.map toLowerC = s := by
  induction s with
  | nil => rfl
  | cons c cs ih =>
    simp only [List.all_cons, Bool.and_eq_true] at h
    rw [List.map_cons, ih h.2]
    congr 1
    unfold toLowerC
    rw [if_neg]
    intro hu
    rcases (by simpa using h.1 : isDigitC c = true ∨ isLowerC c = true) with h1 | h1
    · have := isDigitC_range h1
      have := isUpperC_range hu
      omega
    · have := isLowerC_range h1
      have := isUpperC_range hu
      omega

theorem all_lowalnum_alnum (s : List Char)
    (h : s.all (fun c => isDigitC c || isLowerC c) = true) :
    s.all isAlnumC = true := by
  rw [List.all_eq_true] at h ⊢
  intro c hc
  rcases (by simpa using h c hc : isDigitC c = true ∨ isLowerC c = true) with h1 | h1
  · unfold isAlnumC
    simp [h1]
  · unfold isAlnumC isLetterC
    simp [h1]

theorem lastNotSpace_singleton (c : Char) (hc : isSpaceC c = false) :
    lastNotSpace [c] := by
  unfold lastNotSpace
  rw [List.reverse_singleton]
  exact headNotSpace_cons c [] hc

theorem xSafe_guard (c0 : Char) (nt tail3 : List Char)
    (hx : xSafeB (c0 :: nt) = true) :
    ((c0 == 'x' || c0 == 'X') &&
      (match nt ++ tail3 with | v0 :: _ => isSpaceC v0 | [] => false)) = false := by
  cases hc : (c0 == 'x' || c0 == 'X') with
  | false => simp [hc]
  | true =>
    cases nt with
    | nil =>
      have hx2 : (!(c0 == 'x' || c0 == 'X') || false) = true := hx
      rw [hc] at hx2
      simp at hx2
    | cons c2 t2 =>
      have hx2 : (!(c0 == 'x' || c0 == 'X') || !isSpaceC c2) = true := hx
      rw [hc] at hx2
      simp only [Bool.not_true, Bool.false_or] at hx2
      rw [List.cons_append]
      simp only [Bool.true_and]
      simpa using hx2

/-- Top of the parser pipeline for lines of the shape digits, one space,
then a plain name followed by a remainder tail: the guards pass, the foil
scan leaves the line unchanged (hypothesis), and the quantity prefix is
consumed, leaving the set and collector-number stages on the remainder. -/
theorem parse_space_pipeline (D name tail3 : List Char)
    (hD : D ≠ []) (hDall : D.all isDigitC = true)
    (hname : plainNameB name = true) (hx : xSafeB name = true)
    (hfoilid : foilSub (D ++ ' ' :: (name ++ tail3)) = D ++ ' ' :: (name ++ tail3))
    (hlast : lastNotSpace (name ++ tail3)) :
    parse_deck_line (D ++ ' ' :: (name ++ tail3)) =
      parseRest (digitsVal D) (name ++ tail3) := by
  obtain ⟨hnne, hnall, hnh, hnl⟩ := plainName_facts name hname
  have hLh : headNotSpace (D ++ ' ' :: (name ++ tail3)) :=
    headNotSpace_append D _ hD (headNotSpace_alnum D (all_digit_alnum D hDall))
  have hLform : D ++ ' ' :: (name ++ tail3) = (D ++ [' ']) ++ (name ++ tail3) := by
    simp
  have hLl : lastNotSpace (D ++ ' ' :: (name ++ tail3)) := by
    rw [hLform]
    exact lastNotSpace_append _ _ (append_ne_nil_left name tail3 hnne) hlast
  have htrimL : trim (D ++ ' ' :: (name ++ tail3)) = D ++ ' ' :: (name ++ tail3) :=
    trim_eq_self _ hLh hLl
  obtain ⟨c0, nt, hn0⟩ : ∃ c0 nt, name = c0 :: nt := by
    cases name with
    | nil => exact absurd rfl hnne
    | cons a t => exact ⟨a, t, rfl⟩
  have hc0 : isSpaceC c0 = false := hnh c0 nt hn0
  have hsplitn : name ++ tail3 = c0 :: (nt ++ tail3) := by
    rw [hn0, List.cons_append]
  have hq : qtySplit (D ++ ' ' :: (name ++ tail3)) =
      some (digitsVal D, trim (c0 :: (nt ++ tail3))) := by
    rw [hsplitn]
    exact qtySplit_space_form D c0 (nt ++ tail3) hD hDall hc0
      (xSafe_guard c0 nt tail3 (by rw [← hn0]; exact hx))
  have htrimr : trim (c0 :: (nt ++ tail3)) = name ++ tail3 := by
    rw [← hsplitn]
    apply trim_eq_self
    · exact headNotSpace_append name tail3 hnne hnh
    · exact hlast
  unfold parse_deck_line
  rw [htrimL, list_isEmpty_false _ (append_ne_nil_left D _ hD),
    startsWithAny_append_digit D _ hD hDall, hfoilid, htrimL]
  simp only [Bool.false_eq_true, if_false]
  unfold parseAfterFoil
  rw [hq]
  show parseRest (digitsVal D) (trim (c0 :: (nt ++ tail3))) = _
  rw [htrimr]

/-! The remaining three remainder shapes of the canonical serialisation. -/

theorem parseRest_setonly (q : Nat) (name sc : List Char)
    (hname : plainNameB name = true) (hsall : sc.all isAlnumC = true)
    (hs2 : 2 ≤ sc.length) (hs5 : sc.length ≤ 5) :
    parseRest q (name ++ ' ' :: '(' :: (sc ++ [')'])) =
      some ⟨q, name, some (sc.map toLowerC), none⟩ := by
  obtain ⟨hnne, hnall, hnh, hnl⟩ := plainName_facts name hname
  have hn2 : ∀ c ∈ name ++ [' '], (c == '(') = false := by
    intro c hc
    rcases List.mem_append.mp hc with h1 | h1
    · exact nameChar_beq_false (hnall c h1) '(' (by decide)
    · have h2 : c = ' ' := by simpa using h1
      subst h2
      decide
  have hss : setSearch (name ++ ' ' :: '(' :: (sc ++ [')'])) =
      some (name ++ [' '], sc, []) := by
    have hform : name ++ ' ' :: '(' :: (sc ++ [')']) =
        (name ++ [' ']) ++ ('(' :: (sc ++ ')' :: [])) := by
      simp
    rw [hform]
    exact setSearch_template (name ++ [' ']) sc [] hn2 hsall hs2 hs5
  unfold parseRest
  rw [hss]
  show parseNum q (some (List.map toLowerC sc)) (trim ((name ++ [' ']) ++ [])) =
    some ⟨q, name, some (sc.map toLowerC), none⟩
  rw [List.append_nil]
  rw [trim_append_spaces name [' '] (by decide) hnh hnl]
  unfold parseNum
  rw [numSearch_none name (fun c hc => nameChar_not_digit (hnall c hc))]
  rw [trim_eq_self name hnh hnl]
  unfold mkEntry
  rw [slashNorm_id name (fun c hc => nameChar_beq_false (hnall c hc) '/' (by decide))]
  rw [list_isEmpty_false name hnne]
  simp

theorem parseRest_numonly (q : Nat) (name num dg suf : List Char)
    (hname : plainNameB name = true)
    (hnum : num = dg ++ suf) (hdg : dg ≠ []) (hdgall : dg.all isDigitC = true)
    (hsuf : suf = [] ∨ ∃ c, suf = [c] ∧ isLetterC c = true) :
    parseRest q (name ++ ' ' :: num) = some ⟨q, name, none, some num⟩ := by
  obtain ⟨hnne, hnall, hnh, hnl⟩ := plainName_facts name hname
  have hnumne : num ≠ [] := by
    subst hnum
    exact append_ne_nil_left dg suf hdg
  have hnumall : num.all isAlnumC = true := by
    subst hnum
    rcases hsuf with rfl | ⟨c, rfl, hc⟩
    · simpa using all_digit_alnum dg hdgall
    · simp [List.all_append, all_digit_alnum dg hdgall, isAlnumC, hc]
  have hnop : ∀ c ∈ name ++ ' ' :: num, (c == '(') = false := by
    intro c hc
    rcases List.mem_append.mp hc with h1 | h1
    · exact nameChar_beq_false (hnall c h1) '(' (by decide)
    · rcases List.mem_cons.mp h1 with rfl | h1
      · decide
      exact alnum_beq_false_low ((List.all_eq_true.mp hnumall) c h1) '(' (by decide)
  unfold parseRest
  rw [setSearch_none _ hnop]
  have hpre : ∀ c ∈ name ++ [' '], isDigitC c = false := by
    intro c hc
    rcases List.mem_append.mp hc with h1 | h1
    · exact nameChar_not_digit (hnall c h1)
    · have h2 : c = ' ' := by simpa using h1
      subst h2
      decide
  have hns : numSearch (name ++ ' ' :: num) = some (name ++ [' '], num) := by
    have hform : name ++ ' ' :: num = (name ++ [' ']) ++ num := by simp
    rw [hform]
    exact numSearch_template (name ++ [' ']) num dg suf hpre
      (by rw [List.foldl_append]; rfl) hnum hdg hdgall hsuf
  unfold parseNum
  rw [hns]
  show mkEntry q none (some num) (trim (name ++ [' '])) =
    some ⟨q, name, none, some num⟩
  rw [trim_append_spaces name [' '] (by decide) hnh hnl]
  unfold mkEntry
  rw [slashNorm_id name (fun c hc => nameChar_beq_false (hnall c hc) '/' (by decide))]
  rw [list_isEmpty_false name hnne]
  simp

theorem parseRest_bare (q : Nat) (name : List Char)
    (hname : plainNameB name = true) :
    parseRest q name = some ⟨q, name, none, none⟩ := by
  obtain ⟨hnne, hnall, hnh, hnl⟩ := plainName_facts name hname
  unfold parseRest
  rw [setSearch_none name (fun c hc => nameChar_beq_false (hnall c hc) '(' (by decide))]
  unfold parseNum
  rw [numSearch_none name (fun c hc => nameChar_not_digit (hnall c hc))]
  rw [trim_eq_self name hnh hnl]
  unfold mkEntry
  rw [slashNorm_id name (fun c hc => nameChar_beq_false (hnall c hc) '/' (by decide))]
  rw [list_isEmpty_false name hnne]
  simp

theorem serial_char_star (c : Char)
    (h : isDigitC c = true ∨ (isLetterC c || c == ' ') = true ∨ isAlnumC c = true ∨
      c = ' ' ∨ c = '(' ∨ c = ')') : (c == '*') = false := by
  rcases h with h | h | h | rfl | rfl | rfl
  · exact digit_beq_false h '*' (by decide)
  · exact nameChar_beq_false h '*' (by decide)
  · exact alnum_beq_false_low h '*' (by decide)
  · decide
  · decide
  · decide

theorem serial_char_noparen (c : Char)
    (h : isDigitC c = true ∨ (isLetterC c || c == ' ') = true ∨ isAlnumC c = true ∨
      c = ' ' ∨ c = ')') : (c == '(') = false := by
  rcases h with h | h | h | rfl | rfl
  · exact digit_beq_false h '(' (by decide)
  · exact nameChar_beq_false h '(' (by decide)
  · exact alnum_beq_false_low h '(' (by decide)
  · decide
  · decide

theorem mem_line_split {c : Char} {D nm tail3 : List Char}
    (hc : c ∈ D ++ ' ' :: (nm ++ tail3)) :
    c ∈ D ∨ c = ' ' ∨ c ∈ nm ∨ c ∈ tail3 := by
  rcases List.mem_append.mp hc with h | h
  · exact Or.inl h
  · rcases List.mem_cons.mp h with rfl | h
    · exact Or.inr (Or.inl rfl)
    · rcases List.mem_append.mp h with h | h
      · exact Or.inr (Or.inr (Or.inl h))
      · exact Or.inr (Or.inr (Or.inr h))

/-- C4 counterexample: a parse-produced entry whose name retains a
parenthesised token is changed by the canonical serialise-then-parse round
trip, because the retained token is picked up as the set code on re-parse. -/
theorem c4_counterexample :
    parse_deck_line ("A (bb) B (cc)".toList) =
      some ⟨1, "A  B (cc)".toList, some ("bb".toList), none⟩ ∧
    parse_deck_line (serializeEntry ⟨1, "A  B (cc)".toList, some ("bb".toList), none⟩) ≠
      some ⟨1, "A  B (cc)".toList, some ("bb".toList), none⟩ := by
  decide

/-- C4 (amended): serialising to the canonical qty name (set) num textual
form and re-parsing is the identity on every CardEntry whose name is a
plain card name (nonempty trimmed letters and spaces) not beginning with a
lone x or X token, whose set code — when present — is a 2-5 character
lowercase alphanumeric token other than the word foil, and whose collector
number — when present — is a digit run optionally followed by one ASCII
letter. -/
theorem c4_amended (q : Nat) (nm : List Char) (setO cnO : Option (List Char))
    (hname : plainNameB nm = true) (hx : xSafeB nm = true)
    (hset : ∀ s, setO = some s →
      s.all (fun c => isDigitC c || isLowerC c) = true ∧
      2 ≤ s.length ∧ s.length ≤ 5 ∧ isFoilWordB s = false)
    (hcn : ∀ n, cnO = some n → ∃ dg suf, n = dg ++ suf ∧ dg ≠ [] ∧
      dg.all isDigitC = true ∧ (suf = [] ∨ ∃ c, suf = [c] ∧ isLetterC c = true)) :
    parse_deck_line (serializeEntry ⟨q, nm, setO, cnO⟩) =
      some ⟨q, nm, setO, cnO⟩ := by
  obtain ⟨hnne, hnall, hnh, hnl⟩ := plainName_facts nm hname
  obtain ⟨hDall, hDne, hDval⟩ := natDigits_spec q
  cases setO with
  | some s =>
    obtain ⟨hsl, hs2, hs5, hsfoil⟩ := hset s rfl
    have hsall := all_lowalnum_alnum s hsl
    have hsid : s.map toLowerC = s := map_toLowerC_id s hsl
    cases cnO with
    | some n =>
      obtain ⟨dg, suf, hn, hdg, hdgall, hsuf⟩ := hcn n rfl
      have hnumne : n ≠ [] := by
        subst hn
        exact append_ne_nil_left dg suf hdg
      have hnumall : n.all isAlnumC = true := by
        subst hn
        rcases hsuf with rfl | ⟨c, rfl, hc⟩
        · simpa using all_digit_alnum dg hdgall
        · simp [List.all_append, all_digit_alnum dg hdgall, isAlnumC, hc]
      have hser : serializeEntry ⟨q, nm, some s, some n⟩ =
          natDigits q ++ ' ' :: (nm ++ ' ' :: '(' :: (s ++ ')' :: ' ' :: n)) := by
        simp [serializeEntry]
      rw [hser]
      have hstar : ∀ c ∈ natDigits q ++ ' ' ::
          (nm ++ ' ' :: '(' :: (s ++ ')' :: ' ' :: n)), (c == '*') = false := by
        intro c hc
        rcases mem_line_split hc with h | h | h | h
        · exact serial_char_star c (Or.inl ((List.all_eq_true.mp hDall) c h))
        · exact serial_char_star c (Or.inr (Or.inr (Or.inr (Or.inl h))))
        · exact serial_char_star c (Or.inr (Or.inl (hnall c h)))
        · rcases List.mem_cons.mp h with rfl | h
          · decide
          rcases List.mem_cons.mp h with rfl | h
          · decide
          rcases List.mem_append.mp h with h | h
          · exact serial_char_star c
              (Or.inr (Or.inr (Or.inl ((List.all_eq_true.mp hsall) c h))))
          rcases List.mem_cons.mp h with rfl | h
          · decide
          rcases List.mem_cons.mp h with rfl | h
          · decide
          exact serial_char_star c
            (Or.inr (Or.inr (Or.inl ((List.all_eq_true.mp hnumall) c h))))
      have hPQ : natDigits q ++ ' ' :: (nm ++ ' ' :: '(' :: (s ++ ')' :: ' ' :: n)) =
          (natDigits q ++ ' ' :: (nm ++ [' '])) ++ '(' :: (s ++ ')' :: ' ' :: n) := by
        simp
      have hP : ∀ c ∈ natDigits q ++ ' ' :: (nm ++ [' ']), (c == '(') = false := by
        intro c hc
        rcases mem_line_split hc with h | h | h | h
        · exact serial_char_noparen c (Or.inl ((List.all_eq_true.mp hDall) c h))
        · exact serial_char_noparen c (Or.inr (Or.inr (Or.inr (Or.inl h))))
        · exact serial_char_noparen c (Or.inr (Or.inl (hnall c h)))
        · have h2 : c = ' ' := by simpa using h
          subst h2
          decide
      have hQ : ∀ c ∈ s ++ ')' :: ' ' :: n, (c == '(') = false := by
        intro c hc
        rcases List.mem_append.mp hc with h | h
        · exact serial_char_noparen c
            (Or.inr (Or.inr (Or.inl ((List.all_eq_true.mp hsall) c h))))
        rcases List.mem_cons.mp h with rfl | h
        · decide
        rcases List.mem_cons.mp h with rfl | h
        · decide
        exact serial_char_noparen c
          (Or.inr (Or.inr (Or.inl ((List.all_eq_true.mp hnumall) c h))))
      have hfoilid : foilSub (natDigits q ++ ' ' ::
          (nm ++ ' ' :: '(' :: (s ++ ')' :: ' ' :: n))) =
          natDigits q ++ ' ' :: (nm ++ ' ' :: '(' :: (s ++ ')' :: ' ' :: n)) := by
        apply foilSub_id_of _ hstar
        intro t ht
        rw [hPQ] at ht
        exact foilParen_none_split _ _ hP hQ
          (foilParen_none_sethead s (' ' :: n) hsall hs2 hs5 hsfoil) t ht
      have hlast : lastNotSpace (nm ++ ' ' :: '(' :: (s ++ ')' :: ' ' :: n)) := by
        have hform : nm ++ ' ' :: '(' :: (s ++ ')' :: ' ' :: n) =
            (nm ++ ' ' :: '(' :: (s ++ [')', ' '])) ++ n := by
          simp
        rw [hform]
        exact lastNotSpace_append _ n hnumne (lastNotSpace_alnum n hnumall)
      rw [parse_space_pipeline (natDigits q) nm _ hDne hDall hname hx hfoilid hlast,
        hDval, parseRest_template q nm s n dg suf hname hsall hs2 hs5 hn hdg
          hdgall hsuf, hsid]
    | none =>
      have hser : serializeEntry ⟨q, nm, some s, none⟩ =
          natDigits q ++ ' ' :: (nm ++ ' ' :: '(' :: (s ++ [')'])) := by
        simp [serializeEntry]
      rw [hser]
      have hstar : ∀ c ∈ natDigits q ++ ' ' :: (nm ++ ' ' :: '(' :: (s ++ [')'])),
          (c == '*') = false := by
        intro c hc
        rcases mem_line_split hc with h | h | h | h
        · exact serial_char_star c (Or.inl ((List.all_eq_true.mp hDall) c h))
        · exact serial_char_star c (Or.inr (Or.inr (Or.inr (Or.inl h))))
        · exact serial_char_star c (Or.inr (Or.inl (hnall c h)))
        · rcases List.mem_cons.mp h with rfl | h
          · decide
          rcases List.mem_cons.mp h with rfl | h
          · decide
          rcases List.mem_append.mp h with h | h
          · exact serial_char_star c
              (Or.inr (Or.inr (Or.inl ((List.all_eq_true.mp hsall) c h))))
          · have h2 : c = ')' := by simpa using h
            subst h2
            decide
      have hPQ : natDigits q ++ ' ' :: (nm ++ ' ' :: '(' :: (s ++ [')'])) =
          (natDigits q ++ ' ' :: (nm ++ [' '])) ++ '(' :: (s ++ [')']) := by
        simp
      have hP : ∀ c ∈ natDigits q ++ ' ' :: (nm ++ [' ']), (c == '(') = false := by
        intro c hc
        rcases mem_line_split hc with h | h | h | h
        · exact serial_char_noparen c (Or.inl ((List.all_eq_true.mp hDall) c h))
        · exact serial_char_noparen c (Or.inr (Or.inr (Or.inr (Or.inl h))))
        · exact serial_char_noparen c (Or.inr (Or.inl (hnall c h)))
        · have h2 : c = ' ' := by simpa using h
          subst h2
          decide
      have hQ : ∀ c ∈ s ++ [')'], (c == '(') = false := by
        intro c hc
        rcases List.mem_append.mp hc with h | h
        · exact serial_char_noparen c
            (Or.inr (Or.inr (Or.inl ((List.all_eq_true.mp hsall) c h))))
        · have h2 : c = ')' := by simpa using h
          subst h2
          decide
      have hfoilid : foilSub (natDigits q ++ ' ' :: (nm ++ ' ' :: '(' :: (s ++ [')']))) =
          natDigits q ++ ' ' :: (nm ++ ' ' :: '(' :: (s ++ [')'])) := by
        apply foilSub_id_of _ hstar
        intro t ht
        rw [hPQ] at ht
        exact foilParen_none_split _ _ hP hQ
          (foilParen_none_sethead s [] hsall hs2 hs5 hsfoil) t ht
      have hlast : lastNotSpace (nm ++ ' ' :: '(' :: (s ++ [')'])) := by
        have hform : nm ++ ' ' :: '(' :: (s ++ [')']) =
            (nm ++ ' ' :: '(' :: s) ++ [')'] := by
          simp
        rw [hform]
        exact lastNotSpace_append _ [')'] (by simp)
          (lastNotSpace_singleton ')' (by decide))
      rw [parse_space_pipeline (natDigits q) nm _ hDne hDall hname hx hfoilid hlast,
        hDval, parseRest_setonly q nm s hname hsall hs2 hs5, hsid]
  | none =>
    cases cnO with
    | some n =>
      obtain ⟨dg, suf, hn, hdg, hdgall, hsuf⟩ := hcn n rfl
      have hnumne : n ≠ [] := by
        subst hn
        exact append_ne_nil_left dg suf hdg
      have hnumall : n.all isAlnumC = true := by
        subst hn
        rcases hsuf with rfl | ⟨c, rfl, hc⟩
        · simpa using all_digit_alnum dg hdgall
        · simp [List.all_append, all_digit_alnum dg hdgall, isAlnumC, hc]
      have hser : serializeEntry ⟨q, nm, none, some n⟩ =
          natDigits q ++ ' ' :: (nm ++ ' ' :: n) := by
        simp [serializeEntry]
      rw [hser]
      have hstar : ∀ c ∈ natDigits q ++ ' ' :: (nm ++ ' ' :: n),
          (c == '*') = false := by
        intro c hc
        rcases mem_line_split hc with h | h | h | h
        · exact serial_char_star c (Or.inl ((List.all_eq_true.mp hDall) c h))
        · exact serial_char_star c (Or.inr (Or.inr (Or.inr (Or.inl h))))
        · exact serial_char_star c (Or.inr (Or.inl (hnall c h)))
        · rcases List.mem_cons.mp h with rfl | h
          · decide
          exact serial_char_star c
            (Or.inr (Or.inr (Or.inl ((List.all_eq_true.mp hnumall) c h))))
      have hnop : ∀ c ∈ natDigits q ++ ' ' :: (nm ++ ' ' :: n),
          (c == '(') = false := by
        intro c hc
        rcases mem_line_split hc with h | h | h | h
        · exact serial_char_noparen c (Or.inl ((List.all_eq_true.mp hDall) c h))
        · exact serial_char_noparen c (Or.inr (Or.inr (Or.inr (Or.inl h))))
        · exact serial_char_noparen c (Or.inr (Or.inl (hnall c h)))
        · rcases List.mem_cons.mp h with rfl | h
          · decide
          exact serial_char_noparen c
            (Or.inr (Or.inr (Or.inl ((List.all_eq_true.mp hnumall) c h))))
      have hfoilid : foilSub (natDigits q ++ ' ' :: (nm ++ ' ' :: n)) =
          natDigits q ++ ' ' :: (nm ++ ' ' :: n) :=
        foilSub_id_of _ hstar (foilParen_none_noparen _ hnop)
      have hlast : lastNotSpace (nm ++ ' ' :: n) := by
        have hform : nm ++ ' ' :: n = (nm ++ [' ']) ++ n := by simp
        rw [hform]
        exact lastNotSpace_append _ n hnumne (lastNotSpace_alnum n hnumall)
      rw [parse_space_pipeline (natDigits q) nm _ hDne hDall hname hx hfoilid hlast,
        hDval, parseRest_numonly q nm n dg suf hname hn hdg hdgall hsuf]
    | none =>
      have hser : serializeEntry ⟨q, nm, none, none⟩ =
          natDigits q ++ ' ' :: (nm ++ []) := by
        simp [serializeEntry]
      rw [hser]
      have hstar : ∀ c ∈ natDigits q ++ ' ' :: (nm ++ []), (c == '*') = false := by
        intro c hc
        rcases mem_line_split hc with h | h | h | h
        · exact serial_char_star c (Or.inl ((List.all_eq_true.mp hDall) c h))
        · exact serial_char_star c (Or.inr (Or.inr (Or.inr (Or.inl h))))
        · exact serial_char_star c (Or.inr (Or.inl (hnall c h)))
        · cases h
      have hnop : ∀ c ∈ natDigits q ++ ' ' :: (nm ++ []), (c == '(') = false := by
        intro c hc
        rcases mem_line_split hc with h | h | h | h
        · exact serial_char_noparen c (Or.inl ((List.all_eq_true.mp hDall) c h))
        · exact serial_char_noparen c (Or.inr (Or.inr (Or.inr (Or.inl h))))
        · exact serial_char_noparen c (Or.inr (Or.inl (hnall c h)))
        · cases h
      have hfoilid : foilSub (natDigits q ++ ' ' :: (nm ++ [])) =
          natDigits q ++ ' ' :: (nm ++ []) :=
        foilSub_id_of _ hstar (foilParen_none_noparen _ hnop)
      have hlast : lastNotSpace (nm ++ []) := by
        rw [List.append_nil]
        exact hnl
      rw [parse_space_pipeline (natDigits q) nm [] hDne hDall hname hx hfoilid hlast,
        hDval]
      rw [show nm ++ [] = nm from List.append_nil nm]
      exact parseRest_bare q nm hname

/-- C4 amended witness at the entry 3 Lightning Bolt (lea) 162. -/
theorem c4_amended_witness :
    parse_deck_line (serializeEntry
        ⟨3, "Lightning Bolt".toList, some ("lea".toList), some ("162".toList)⟩) =
      some ⟨3, "Lightning Bolt".toList, some ("lea".toList), some ("162".toList)⟩ :=
  c4_amended 3 ("Lightning Bolt".toList) (some ("lea".toList))
    (some ("162".toList)) (by decide) (by decide)
    (fun s hs => by
      injection hs with h1
      rw [← h1]
      exact ⟨by decide, by decide, by decide, by decide⟩)
    (fun n hn => by
      injection hn with h1
      exact ⟨"162".toList, [], by rw [← h1]; decide, by decide, by decide, Or.inl rfl⟩)

/-! Basic structural lemmas for the parser stages. -/

theorem mkEntry_fields (q : Nat) (sc cn : Option (List Char)) (n0 : List Char)
    (e : CardEntry) (h : mkEntry q sc cn n0 = some e) :
    e.qty = q ∧ e.name ≠ [] ∧ e.set = sc ∧ e.collector_number = cn := by
  unfold mkEntry at h
  by_cases hn : (slashNorm n0).isEmpty
  · simp [hn] at h
  · simp only [hn, if_neg, Bool.false_eq_true, not_false_eq_true, if_false] at h
    cases h
    refine ⟨rfl, ?_, rfl, rfl⟩
    intro hnil
    exact hn (by simpa using hnil)

theorem parseNum_fields (q : Nat) (sc : Option (List Char)) (rws : List Char)
    (e : CardEntry) (h : parseNum q sc rws = some e) :
    e.qty = q ∧ e.name ≠ [] ∧ e.set = sc := by
  unfold parseNum at h
  cases hm : numSearch rws with
  | none =>
    rw [hm] at h
    have := mkEntry_fields q sc none (trim rws) e h
    exact ⟨this.1, this.2.1, this.2.2.1⟩
  | some p =>
    rw [hm] at h
    have := mkEntry_fields q sc (some p.2) (trim p.1) e h
    exact ⟨this.1, this.2.1, this.2.2.1⟩

theorem parseRest_fields (q : Nat) (rest : List Char) (e : CardEntry)
    (h : parseRest q rest = some e) : e.qty = q ∧ e.name ≠ [] := by
  unfold parseRest at h
  cases hm : setSearch rest with
  | none =>
    rw [hm] at h
    have := parseNum_fields q none rest e h
    exact ⟨this.1, this.2.1⟩
  | some p =>
    rw [hm] at h
    have := parseNum_fields q (some (p.2.1.map toLowerC)) (trim (p.1 ++ p.2.2)) e h
    exact ⟨this.1, this.2.1⟩

/-- C5 counterexample: the line with an explicit zero quantity prefix parses
to a CardEntry whose quantity is zero, not positive. -/
theorem c5_counterexample :
    parse_deck_line ("0 Lightning Bolt".toList) =
      some ⟨0, "Lightning Bolt".toList, none, none⟩ ∧
    ¬ 0 < (CardEntry.mk 0 ("Lightning Bolt".toList) none none).qty := by
  decide

/-- C5 (amended): whenever the parser returns an entry, the name is
non-empty, the quantity is 1 when no leading quantity prefix matches, and
otherwise the quantity is the numeric value of the matched prefix, which
may be zero. -/
theorem c5_amended (line : List Char) (e : CardEntry)
    (h : parse_deck_line line = some e) :
    e.name ≠ [] ∧
    (qtySplit (trim (foilSub (trim line))) = none → e.qty = 1) ∧
    (∀ q rest, qtySplit (trim (foilSub (trim line))) = some (q, rest) → e.qty = q) := by
  unfold parse_deck_line at h
  by_cases h1 : (trim line).isEmpty
  · simp [h1] at h
  · simp only [h1, Bool.false_eq_true, not_false_eq_true, if_false] at h
    by_cases h2 : startsWithAny (trim line)
    · simp [h2] at h
    · simp only [h2, Bool.false_eq_true, not_false_eq_true, if_false] at h
      unfold parseAfterFoil at h
      cases hq : qtySplit (trim (foilSub (trim line))) with
      | none =>
        rw [hq] at h
        have hf := parseRest_fields 1 (trim (foilSub (trim line))) e h
        refine ⟨hf.2, fun _ => hf.1, ?_⟩
        intro q rest hsome
        cases hsome
      | some p =>
        obtain ⟨q0, rest0⟩ := p
        rw [hq] at h
        have hf := parseRest_fields q0 rest0 e h
        refine ⟨hf.2, ?_, ?_⟩
        · intro hnone
          cases hnone
        · intro q rest hsome
          injection hsome with h1
          cases h1
          exact hf.1

/-- C5 amended witness at a concrete line with a quantity prefix. -/
theorem c5_amended_witness :
    (CardEntry.mk 4 ("Giant Growth".toList) none none).name ≠ [] ∧
    (qtySplit (trim (foilSub (trim ("4x Giant Growth".toList)))) = none →
      (CardEntry.mk 4 ("Giant Growth".toList) none none).qty = 1) ∧
    (∀ q rest,
      qtySplit (trim (foilSub (trim ("4x Giant Growth".toList)))) = some (q, rest) →
      (CardEntry.mk 4 ("Giant Growth".toList) none none).qty = q) :=
  c5_amended ("4x Giant Growth".toList)
    (CardEntry.mk 4 ("Giant Growth".toList) none none) (by decide)

/-- C6: the built identifier is set plus collector number when both are
present (never with a name field), name plus set when only the set is
present, and name alone otherwise, positionally for every entry. -/
theorem c6_identifier_precedence (es : List CardEntry) (i : Nat) (e : CardEntry)
    (hget : es[i]? = some e) :
    (truthy e.set = true → truthy e.collector_number = true →
      (build_identifiers es)[i]? =
        some { name := none, set := e.set, collector_number := e.collector_number }) ∧
    (truthy e.set = true → truthy e.collector_number = false →
      (build_identifiers es)[i]? =
        some { name := some e.name, set := e.set, collector_number := none }) ∧
    (truthy e.set = false →
      (build_identifiers es)[i]? =
        some { name := some e.name, set := none, collector_number := none }) := by
  unfold build_identifiers
  rw [List.getElem?_map, hget]
  refine ⟨fun hs hc => ?_, fun hs hc => ?_, fun hs => ?_⟩
  · simp [hs, hc]
  · simp [hs, hc]
  · simp [hs]

/-- C6 witness at one entry with both set and collector number. -/
theorem c6_witness :
    (build_identifiers [⟨3, "Bolt".toList, some ("lea".toList), some ("162".toList)⟩])[0]? =
      some { name := none, set := some ("lea".toList),
             collector_number := some ("162".toList) } :=
  (c6_identifier_precedence
      [⟨3, "Bolt".toList, some ("lea".toList), some ("162".toList)⟩] 0
      ⟨3, "Bolt".toList, some ("lea".toList), some ("162".toList)⟩
      (by decide)).1 (by decide) (by decide)

/-- C8: the built filename carries no quantity marker at quantity one, and
carries exactly the decimal quantity followed by x and a space ahead of the
rest of the name whenever the quantity exceeds one. -/
theorem c8_quantity_marker (card : Card) (qty : Nat) (face_suffix : List Char) :
    (qty = 1 → make_filename card qty face_suffix = filenameBody card face_suffix) ∧
    (qty > 1 → make_filename card qty face_suffix =
      natDigits qty ++ 'x' :: ' ' :: filenameBody card face_suffix) := by
  constructor
  · intro h
    subst h
    simp [make_filename, filenameBody]
  · intro h
    simp [make_filename, filenameBody, h]

/-- C8 witness at quantities one and two. -/
theorem c8_witness :
    (make_filename cardBolt 1 [] = filenameBody cardBolt []) ∧
    (make_filename cardBolt 2 [] =
      natDigits 2 ++ 'x' :: ' ' :: filenameBody cardBolt []) :=
  ⟨(c8_quantity_marker cardBolt 1 []).1 rfl, (c8_quantity_marker cardBolt 2 []).2 (by decide)⟩

/-- C1: behaviour of the batch resolver at a failing input.  With aggregated
entries Alpha (quantity 3) and Beta (quantity 5), where the identifier for
Alpha is reported not found and Beta resolves, the source zips the returned
data list against the whole aggregated slice: the card for Beta is paired
with quantity 3 — the quantity of the missing Alpha entry — instead of its
own entry, and the claimed pairing by original index (quantity 5) does not
hold. -/
theorem c1_zip_misalignment :
    resolve_batches oracleAB [entryAlpha, entryBeta] =
      ([(cardBeta, 3)], [identAlpha]) ∧
    resolve_batches oracleAB [entryAlpha, entryBeta] ≠
      ([(cardBeta, 5)], [identAlpha]) := by
  decide

/-! Nonemptiness of every group produced by the grouping dictionary. -/

theorem upsert_snd_ne_nil (gs : List (List Char × List CardEntry)) (k : List Char)
    (e : CardEntry) (h : ∀ p ∈ gs, p.2 ≠ []) :
    ∀ p ∈ upsert gs k e, p.2 ≠ [] := by
  induction gs with
  | nil =>
    intro p hp
    simp [upsert] at hp
    subst hp
    simp
  | cons g rest ih =>
    intro p hp
    obtain ⟨k2, es⟩ := g
    unfold upsert at hp
    by_cases hk : (k2 == k) = true
    · rw [if_pos hk] at hp
      rcases List.mem_cons.mp hp with h1 | h1
      · subst h1
        simp
      · exact h p (List.mem_cons_of_mem _ h1)
    · rw [if_neg hk] at hp
      rcases List.mem_cons.mp hp with h1 | h1
      · subst h1
        exact h (k2, es) (List.mem_cons_self _ _)
      · exact ih (fun q hq => h q (List.mem_cons_of_mem _ hq)) p h1

theorem foldl_upsert_ne_nil (l : List CardEntry)
    (gs : List (List Char × List CardEntry)) (h : ∀ p ∈ gs, p.2 ≠ []) :
    ∀ p ∈ l.foldl (fun gs e => upsert gs (keyOf e) e) gs, p.2 ≠ [] := by
  induction l generalizing gs with
  | nil => exact h
  | cons e l ih => exact ih _ (upsert_snd_ne_nil gs (keyOf e) e h)

theorem groups_snd_ne_nil (l : List CardEntry) :
    ∀ p ∈ group_by_identifier l, p.2 ≠ [] :=
  foldl_upsert_ne_nil l [] (by intro p hp; cases hp)

/-! Characterisation of the grouping dictionary. -/

theorem lookupG_upsert (gs : List (List Char × List CardEntry)) (k0 k : List Char)
    (e : CardEntry) :
    lookupG (upsert gs k0 e) k =
      if k0 == k then lookupG gs k ++ [e] else lookupG gs k := by
  induction gs with
  | nil =>
    simp only [upsert, lookupG]
    by_cases h : (k0 == k) = true <;> simp [h]
  | cons g rest ih =>
    obtain ⟨k2, es⟩ := g
    unfold upsert
    by_cases h2 : (k2 == k0) = true
    · rw [if_pos h2]
      have hk2 : k2 = k0 := by simpa using h2
      subst hk2
      by_cases hk : (k2 == k) = true
      · simp [lookupG, hk]
      · simp [lookupG, hk]
    · rw [if_neg h2]
      by_cases hk : (k2 == k) = true
      · have hk2 : k2 = k := by simpa using hk
        subst hk2
        have h0 : (k0 == k2) = false := by
          rw [beq_eq_false_iff_ne]
          intro h0
          subst h0
          simp at h2
        simp [lookupG, hk, h0]
      · simp [lookupG, hk, ih]

theorem lookupG_foldl (l : List CardEntry) (gs : List (List Char × List CardEntry))
    (k : List Char) :
    lookupG (l.foldl (fun gs e => upsert gs (keyOf e) e) gs) k =
      lookupG gs k ++ l.filter (fun e => keyOf e == k) := by
  induction l generalizing gs with
  | nil => simp
  | cons e l ih =>
    simp only [List.foldl_cons, List.filter_cons]
    rw [ih, lookupG_upsert]
    by_cases h : (keyOf e == k) = true
    · simp [h]
    · simp [h]

theorem keysG_upsert_mem (gs : List (List Char × List CardEntry)) (k0 k : List Char)
    (e : CardEntry) :
    k ∈ keysG (upsert gs k0 e) ↔ k = k0 ∨ k ∈ keysG gs := by
  induction gs with
  | nil => simp [upsert, keysG]
  | cons g rest ih =>
    obtain ⟨k2, es⟩ := g
    unfold upsert
    by_cases h2 : (k2 == k0) = true
    · have hk2 : k2 = k0 := by simpa using h2
      subst hk2
      rw [if_pos h2]
      simp only [keysG, List.map_cons, List.mem_cons]
      tauto
    · rw [if_neg h2]
      simp only [keysG, List.map_cons, List.mem_cons] at ih ⊢
      rw [ih]
      tauto

theorem keysG_foldl_mem (l : List CardEntry) (gs : List (List Char × List CardEntry))
    (k : List Char) :
    k ∈ keysG (l.foldl (fun gs e => upsert gs (keyOf e) e) gs) ↔
      k ∈ keysG gs ∨ k ∈ l.map keyOf := by
  induction l generalizing gs with
  | nil => simp
  | cons e l ih =>
    simp only [List.foldl_cons, List.map_cons, List.mem_cons]
    rw [ih, keysG_upsert_mem]
    tauto

theorem nodup_keysG_upsert (gs : List (List Char × List CardEntry)) (k0 : List Char)
    (e : CardEntry) (h : (keysG gs).Nodup) : (keysG (upsert gs k0 e)).Nodup := by
  induction gs with
  | nil => simp [upsert, keysG]
  | cons g rest ih =>
    obtain ⟨k2, es⟩ := g
    unfold upsert
    by_cases h2 : (k2 == k0) = true
    · rw [if_pos h2]
      exact h
    · rw [if_neg h2]
      simp only [keysG, List.map_cons, List.nodup_cons] at h ⊢
      refine ⟨?_, ih h.2⟩
      intro hmem
      rcases (keysG_upsert_mem rest k0 k2 e).mp hmem with h1 | h1
      · subst h1
        simp at h2
      · exact h.1 h1

theorem nodup_keysG_foldl (l : List CardEntry) (gs : List (List Char × List CardEntry))
    (h : (keysG gs).Nodup) :
    (keysG (l.foldl (fun gs e => upsert gs (keyOf e) e) gs)).Nodup := by
  induction l generalizing gs with
  | nil => exact h
  | cons e l ih => exact ih _ (nodup_keysG_upsert gs (keyOf e) e h)

theorem lookupG_of_mem (gs : List (List Char × List CardEntry)) (k : List Char)
    (es : List CardEntry) (h : (keysG gs).Nodup) (hm : (k, es) ∈ gs) :
    lookupG gs k = es := by
  induction gs with
  | nil => cases hm
  | cons g rest ih =>
    obtain ⟨k2, es2⟩ := g
    simp only [keysG, List.map_cons, List.nodup_cons] at h
    rcases List.mem_cons.mp hm with h1 | h1
    · cases h1
      simp [lookupG]
    · have hk : (k2 == k) = false := by
        rw [beq_eq_false_iff_ne]
        intro h2
        subst h2
        exact h.1 (by simpa [keysG] using List.mem_map_of_mem Prod.fst h1)
      simp only [lookupG, hk, Bool.false_eq_true, if_false]
      exact ih h.2 h1

theorem group_char (l : List CardEntry) (p : List Char × List CardEntry)
    (hp : p ∈ group_by_identifier l) :
    p.2 = l.filter (fun e => keyOf e == p.1) := by
  obtain ⟨k, es⟩ := p
  have hnd : (keysG (group_by_identifier l)).Nodup :=
    nodup_keysG_foldl l [] (by simp [keysG])
  have h1 : lookupG (group_by_identifier l) k = es := lookupG_of_mem _ k es hnd hp
  have h2 : lookupG (group_by_identifier l) k =
      lookupG [] k ++ l.filter (fun e => keyOf e == k) := lookupG_foldl l [] k
  simp only [lookupG, List.nil_append] at h2
  simpa using h1.symm.trans h2

theorem keyOf_mem_group (l : List CardEntry) (p : List Char × List CardEntry)
    (hp : p ∈ group_by_identifier l) (e : CardEntry) (he : e ∈ p.2) :
    keyOf e = p.1 := by
  rw [group_char l p hp] at he
  simpa using (List.mem_filter.mp he).2

theorem keyOf_aggregate_map (u : Bool) (l : List CardEntry) :
    (aggregate u l).map keyOf = keysG (group_by_identifier l) := by
  unfold aggregate keysG
  rw [List.map_map]
  apply List.map_congr_left
  intro g hg
  cases hes : g.2 with
  | nil => exact absurd hes (groups_snd_ne_nil l g hg)
  | cons e0 es =>
    have he0 : e0 ∈ g.2 := by rw [hes]; exact List.mem_cons_self _ _
    have hk : keyOf e0 = g.1 := keyOf_mem_group l g hg e0 he0
    simp only [Function.comp_apply, hes]
    exact hk

theorem aggregate_qty (u : Bool) (l : List CardEntry) (e : CardEntry)
    (h : e ∈ aggregate u l) :
    e.qty = if u then 1
      else ((l.filter (fun x => keyOf x == keyOf e)).map (fun i => i.qty)).sum := by
  unfold aggregate at h
  obtain ⟨g, hg, hfe⟩ := List.mem_map.mp h
  cases hes : g.2 with
  | nil => exact absurd hes (groups_snd_ne_nil l g hg)
  | cons e0 es =>
    rw [hes] at hfe
    have he0 : e0 ∈ g.2 := by rw [hes]; exact List.mem_cons_self _ _
    have hk0 : keyOf e0 = g.1 := keyOf_mem_group l g hg e0 he0
    have hke : keyOf e = g.1 := by
      rw [← hfe]
      exact hk0
    have hfil : l.filter (fun x => keyOf x == keyOf e) = e0 :: es := by
      have := group_char l g hg
      rw [hes] at this
      rw [hke]
      exact this.symm
    rw [hfil, ← hfe]

/-- C3: aggregation is order-independent — permuting the parsed entries
changes neither the set of identity keys of the aggregated output nor the
aggregated quantity attached to any key. -/
theorem c3_aggregation_perm (l1 l2 : List CardEntry) (u : Bool) (hp : l1.Perm l2) :
    (∀ k, k ∈ (aggregate u l1).map keyOf ↔ k ∈ (aggregate u l2).map keyOf) ∧
    (∀ e1 e2, e1 ∈ aggregate u l1 → e2 ∈ aggregate u l2 → keyOf e1 = keyOf e2 →
      e1.qty = e2.qty) := by
  constructor
  · intro k
    rw [keyOf_aggregate_map, keyOf_aggregate_map]
    unfold group_by_identifier
    rw [keysG_foldl_mem, keysG_foldl_mem]
    have := (hp.map keyOf).mem_iff (a := k)
    tauto
  · intro e1 e2 h1 h2 hk
    rw [aggregate_qty u l1 e1 h1, aggregate_qty u l2 e2 h2, hk]
    cases u with
    | true => rfl
    | false =>
      simp only [Bool.false_eq_true, if_false]
      exact ((hp.filter _).map _).sum_eq

/-- C3 witness at a two-entry list and its transposition. -/
theorem c3_witness :
    (∀ k, k ∈ (aggregate false [⟨2, "Bolt".toList, none, none⟩,
        ⟨3, "Shock".toList, none, none⟩]).map keyOf ↔
      k ∈ (aggregate false [⟨3, "Shock".toList, none, none⟩,
        ⟨2, "Bolt".toList, none, none⟩]).map keyOf) ∧
    (∀ e1 e2, e1 ∈ aggregate false [⟨2, "Bolt".toList, none, none⟩,
        ⟨3, "Shock".toList, none, none⟩] →
      e2 ∈ aggregate false [⟨3, "Shock".toList, none, none⟩,
        ⟨2, "Bolt".toList, none, none⟩] →
      keyOf e1 = keyOf e2 → e1.qty = e2.qty) :=
  c3_aggregation_perm _ _ false
    (List.Perm.swap (⟨3, "Shock".toList, none, none⟩ : CardEntry)
      ⟨2, "Bolt".toList, none, none⟩ [])

/-- C7: under unique mode every aggregated entry has quantity exactly one. -/
theorem c7_unique_quantity (l : List CardEntry) (e : CardEntry)
    (h : e ∈ aggregate true l) : e.qty = 1 := by
  unfold aggregate at h
  obtain ⟨g, hg, hfe⟩ := List.mem_map.mp h
  cases hes : g.2 with
  | nil => exact absurd hes (groups_snd_ne_nil l g hg)
  | cons e0 es =>
    rw [hes] at hfe
    subst hfe
    rfl

/-- C7 witness: two copies of one card with quantities 2 and 3 aggregate, in
unique mode, to a single entry of quantity 1. -/
theorem c7_witness :
    (CardEntry.mk 1 ("Bolt".toList) none none).qty = 1 :=
  c7_unique_quantity
    [⟨2, "Bolt".toList, none, none⟩, ⟨3, "Bolt".toList, none, none⟩]
    (CardEntry.mk 1 ("Bolt".toList) none none) (by decide)

/-- C9: the orchestrator records, for exactly the resolved cards whose
processing fails, the card name (or Unknown) paired with the failure
message, and processes every card independently of earlier failures. -/
theorem c9_per_card_errors
    (download : List Char → List Char → Except (List Char) Unit)
    (outDir size : List Char) (resolved : List (Card × Nat)) :
    download_all download outDir size resolved =
      resolved.filterMap (fun cq =>
        match processCard download outDir size cq with
        | .ok _ => none
        | .error m => some (cq.1.name.getD ("Unknown".toList), m)) := by
  have aux : ∀ (l : List (Card × Nat)) (acc : List (List Char × List Char)),
      l.foldl (fun errors cq =>
        match processCard download outDir size cq with
        | .ok _ => errors
        | .error m => errors ++ [(cq.1.name.getD ("Unknown".toList), m)]) acc =
      acc ++ l.filterMap (fun cq =>
        match processCard download outDir size cq with
        | .ok _ => none
        | .error m => some (cq.1.name.getD ("Unknown".toList), m)) := by
    intro l
    induction l with
    | nil => intro acc; simp
    | cons cq l ih =>
      intro acc
      simp only [List.foldl_cons, List.filterMap_cons]
      cases hp : processCard download outDir size cq with
      | ok u => simp only [hp]; exact ih acc
      | error m =>
        simp only [hp]
        rw [ih (acc ++ [(cq.1.name.getD ("Unknown".toList), m)])]
        simp
  exact aux resolved []

/-- C10 counterexample: a card with a non-empty top-level image_uris mapping
on which selection does not return a pair at all — the requested size is
missing, so it fails — refuting the unconditional one-pair claim. -/
theorem c10_counterexample :
    truthyL cardPngOnly.image_uris = true ∧
    pick_image_uris cardPngOnly ("large".toList) =
      .error (noSizeMsg ("large".toList) cardPngOnly) :=
  ⟨rfl, rfl⟩

/-- C10 (amended): with a non-empty top-level image_uris mapping the
selection returns exactly one pair of the looked-up url and the empty
suffix when the requested size is present, and fails naming the card when
it is absent, never consulting card_faces; card_faces is consulted exactly
when the top-level mapping is absent or empty, and when both are absent or
empty the selection fails with the no-uris error naming the card. -/
theorem c10_amended (card : Card) (size : List Char) :
    (∀ iu, card.image_uris = some iu → iu ≠ [] →
      (∀ url, lookupSize iu size = some url →
        pick_image_uris card size = .ok [(url, [])]) ∧
      (lookupSize iu size = none →
        pick_image_uris card size = .error (noSizeMsg size card))) ∧
    (truthyL card.image_uris = false →
      (∀ faces, card.card_faces = some faces → faces ≠ [] →
        pick_image_uris card size = facesGo size card 0 faces) ∧
      (truthyL card.card_faces = false →
        pick_image_uris card size = .error (noUrisMsg card))) := by
  obtain ⟨cn, cs, ccn, ciu, cf⟩ := card
  constructor
  · intro iu hiu hne
    cases iu with
    | nil => exact absurd rfl hne
    | cons kv iu2 =>
      cases hiu
      constructor
      · intro url hurl
        show (match lookupSize (kv :: iu2) size with
              | none =>
                Except.error (noSizeMsg size ⟨cn, cs, ccn, some (kv :: iu2), cf⟩)
              | some url => Except.ok [(url, [])]) = _
        rw [hurl]
      · intro hurl
        show (match lookupSize (kv :: iu2) size with
              | none =>
                Except.error (noSizeMsg size ⟨cn, cs, ccn, some (kv :: iu2), cf⟩)
              | some url => Except.ok [(url, [])]) = _
        rw [hurl]
  · intro ht
    constructor
    · intro faces hfaces hne
      cases faces with
      | nil => exact absurd rfl hne
      | cons f fs =>
        cases hfaces
        cases ciu with
        | none => rfl
        | some l =>
          cases l with
          | nil => rfl
          | cons kv iu2 => simp [truthyL] at ht
    · intro hf
      cases ciu with
      | none =>
        cases cf with
        | none => rfl
        | some lf =>
          cases lf with
          | nil => rfl
          | cons f fs => simp [truthyL] at hf
      | some l =>
        cases l with
        | nil =>
          cases cf with
          | none => rfl
          | some lf =>
            cases lf with
            | nil => rfl
            | cons f fs => simp [truthyL] at hf
        | cons kv iu2 => simp [truthyL] at ht

/-- C10 amended witness at a card with the requested size present. -/
theorem c10_amended_witness :
    pick_image_uris cardPngOnly ("png".toList) = .ok [("http-a.png".toList, [])] :=
  ((c10_amended cardPngOnly ("png".toList)).1
    [("png".toList, "http-a.png".toList)] rfl (by decide)).1
    ("http-a.png".toList) (by decide)

example :
    pick_image_uris
      { name := some ("Delver".toList), set := none, collector_number := none,
        image_uris := none,
        card_faces := some
          [{ name := some ("Front".toList),
             image_uris := some [("normal".toList, "u1.jpg".toList)] },
           { name := some ("Back".toList),
             image_uris := some [("normal".toList, "u2.jpg".toList)] }] }
      ("normal".toList) =
    .ok [("u1.jpg".toList, "-Front".toList), ("u2.jpg".toList, "-Back".toList)] := rfl

end Decklists
